import Mathlib

/-!
Shallow embedding of the PuzzleMaker puzzle-layout engine
(src/utils/puzzleGen.ts) in Lean 4, together with theorems settling the
frozen claims about its specification.

Modelling conventions, chosen to match the JavaScript source exactly:

* JS numbers are modelled as `Int` (all quantities reached from integer
  seeds stay integral and well below 2^53, so floating point is exact);
  the value returned by the RNG is modelled as the exact rational
  `state / 233280`.
* The JS remainder operator `%` truncates toward zero (the result has the
  sign of the dividend); it is `Int.tmod`, not mathematical `mod`.
* `Math.floor` is the real floor, so `Math.floor(next() * k)` with
  `next() = s / 233280` is `Int.fdiv (s * k) 233280` (floor division).
* Reading `a[i]` of a JS array at a negative or too-large index yields
  `undefined` (a value); property access on `undefined` (e.g. reading
  `a[i].char` or row indexing `grid[y][x]` when `grid[y]` is undefined)
  throws a TypeError.  Functions that can reach such a throw return
  `Option` results, `none` meaning the call throws.
* `Array.prototype.sort` (ES2019+) is a stable sort; for the total
  preorders used here the stable sorted output is unique, so it is
  modelled by a stable insertion sort.
-/

namespace PuzzleGen

/-! ### SeededRandom (class Random)

`next() { this.seed = (this.seed * 9301 + 49297) % 233280; return this.seed / 233280; }`
-/

/-- One step of the LCG state update, with the JS truncating remainder. -/
def nextState (s : Int) : Int := (s * 9301 + 49297).tmod 233280

/-- The value `next()` returns once the state is `s`: the exact rational
`s / 233280`. -/
def randValue (s : Int) : ℚ := (s : ℚ) / 233280

/-- The seeded RNG object.  Its single field is the mutable `seed` state. -/
structure Random where
  seed : Int
deriving DecidableEq

/-- `rng.next()`: update the state, return the value and the updated object. -/
def Random.next (r : Random) : ℚ × Random :=
  (randValue (nextState r.seed), ⟨nextState r.seed⟩)

/-- `Math.floor(next-value * k)` where `s` is the post-update state:
`⌊(s / 233280) * k⌋ = fdiv (s * k) 233280` (exact rational arithmetic). -/
def floorScale (s : Int) (k : Nat) : Int := (s * k).fdiv 233280

/-- `next-value > 0.5`, decided exactly: `s / 233280 > 1/2 ↔ 2 s > 233280`. -/
def gtHalf (s : Int) : Bool := decide ((233280 : Int) < 2 * s)

theorem floorScale_eq_floor (s : Int) (k : Nat) :
    floorScale s k = ⌊randValue s * k⌋ := by
  have h : randValue s * k = ((s * k : Int) : ℚ) / ((233280 : Nat) : ℚ) := by
    unfold randValue
    push_cast
    ring
  rw [floorScale, h, Rat.floor_intCast_div_natCast, Int.fdiv_eq_ediv _ (by norm_num)]
  norm_num

theorem gtHalf_iff (s : Int) : gtHalf s = true ↔ (1 : ℚ) / 2 < randValue s := by
  unfold gtHalf randValue
  rw [decide_eq_true_iff, div_lt_div_iff₀ (by norm_num) (by norm_num),
    show (1 : ℚ) * 233280 = ((233280 : Int) : ℚ) by norm_num,
    show ((s : Int) : ℚ) * 2 = ((2 * s : Int) : ℚ) by push_cast; ring,
    Int.cast_lt]

theorem nextState_nonneg (s : Int) (h : 0 ≤ s) : 0 ≤ nextState s :=
  Int.tmod_nonneg _ (by nlinarith)

theorem nextState_lt (s : Int) : nextState s < 233280 :=
  Int.tmod_lt_of_pos _ (by norm_num)

theorem nextState_eq_emod (s : Int) (h : 0 ≤ s) :
    nextState s = (s * 9301 + 49297) % 233280 :=
  Int.tmod_eq_emod (by nlinarith) (by norm_num)

theorem floorScale_nonneg (s : Int) (k : Nat) (h : 0 ≤ s) : 0 ≤ floorScale s k := by
  rw [floorScale, Int.fdiv_eq_ediv _ (by norm_num)]
  exact Int.ediv_nonneg (by positivity) (by norm_num)

theorem floorScale_lt (s : Int) (k : Nat) (hs : s < 233280) (hk : 0 < k) :
    floorScale s k < k := by
  rw [floorScale, Int.fdiv_eq_ediv _ (by norm_num)]
  apply Int.ediv_lt_of_lt_mul (by norm_num)
  have hk' : (0 : Int) < (k : Int) := by exact_mod_cast hk
  nlinarith

/-! ### WordNormalizer (cleanWord)

`(w) => w.toUpperCase().replace(/[^A-ZÑÁÉÍÓÚÜ]/g, '')`
-/

/-- JS `toUpperCase` restricted to the characters that can produce a letter
kept by the filter below: ASCII lowercase and the accented lowercase set.
(Other Unicode characters map to themselves; none of them uppercases into
the retained set for the inputs the claims quantify over.) -/
def jsUpper (c : Char) : Char :=
  if c = 'ñ' then 'Ñ'
  else if c = 'á' then 'Á'
  else if c = 'é' then 'É'
  else if c = 'í' then 'Í'
  else if c = 'ó' then 'Ó'
  else if c = 'ú' then 'Ú'
  else if c = 'ü' then 'Ü'
  else c.toUpper

/-- Membership in the retained class `[A-ZÑÁÉÍÓÚÜ]`. -/
def isKeptChar (c : Char) : Bool :=
  ('A' ≤ c && c ≤ 'Z') || c = 'Ñ' || c = 'Á' || c = 'É' || c = 'Í' ||
    c = 'Ó' || c = 'Ú' || c = 'Ü'

/-- `cleanWord`: uppercase, then strip everything outside the retained class. -/
def cleanWord (w : String) : List Char :=
  (w.toList.map jsUpper).filter isKeptChar

theorem cleanWord_all_kept (w : String) :
    ∀ c ∈ cleanWord w, isKeptChar c = true := by
  intro c hc
  exact (List.mem_filter.mp hc).2

/-! ### Stable sort (Array.prototype.sort)

ES2019 `sort` is stable.  For a comparator `cmp` inducing the total
preorder `le a b ↔ cmp(a,b) ≤ 0`, the stable sorted permutation is
unique, so the insertion sort below is extensionally the JS sort. -/

/-- Stable insertion of `a`: `a` goes in front of the first `b` with
`le a b`; on ties the earlier element stays earlier. -/
def insertIn (le : α → α → Bool) (a : α) : List α → List α
  | [] => [a]
  | b :: l => if le a b then a :: b :: l else b :: insertIn le a l

/-- Stable sort by the comparator-induced preorder `le`. -/
def jsSort (le : α → α → Bool) : List α → List α
  | [] => []
  | a :: l => insertIn le a (jsSort le l)

theorem insertIn_perm (le : α → α → Bool) (a : α) (l : List α) :
    (insertIn le a l).Perm (a :: l) := by
  induction l with
  | nil => exact List.Perm.refl _
  | cons b t ih =>
    unfold insertIn
    by_cases h : le a b
    · simp [h]
    · simp only [h, if_neg, Bool.false_eq_true, if_false]
      exact ((ih.cons b).trans (List.Perm.swap a b t))

theorem jsSort_perm (le : α → α → Bool) (l : List α) : (jsSort le l).Perm l := by
  induction l with
  | nil => exact List.Perm.refl _
  | cons a t ih =>
    exact (insertIn_perm le a (jsSort le t)).trans (ih.cons a)

theorem insertIn_pairwise (le : α → α → Bool)
    (htot : ∀ a b, le a b = true ∨ le b a = true)
    (htrans : ∀ a b c, le a b = true → le b c = true → le a c = true)
    (a : α) (l : List α)
    (hl : l.Pairwise (fun x y => le x y = true)) :
    (insertIn le a l).Pairwise (fun x y => le x y = true) := by
  induction l with
  | nil => simp [insertIn]
  | cons b t ih =>
    rcases List.pairwise_cons.mp hl with ⟨hb, ht⟩
    unfold insertIn
    by_cases h : le a b
    · simp only [h, if_true]
      refine List.pairwise_cons.mpr ⟨?_, hl⟩
      intro y hy
      rcases List.mem_cons.mp hy with rfl | hy
      · exact h
      · exact htrans a b y h (hb y hy)
    · simp only [h, Bool.false_eq_true, if_false]
      refine List.pairwise_cons.mpr ⟨?_, ih ht⟩
      intro y hy
      have hy' : y ∈ a :: t := ((insertIn_perm le a t).mem_iff).mp hy
      rcases List.mem_cons.mp hy' with heq | hy'
      · rw [heq]
        rcases htot a b with hab | hba
        · exact absurd hab h
        · exact hba
      · exact hb y hy'

theorem jsSort_pairwise (le : α → α → Bool)
    (htot : ∀ a b, le a b = true ∨ le b a = true)
    (htrans : ∀ a b c, le a b = true → le b c = true → le a c = true)
    (l : List α) :
    (jsSort le l).Pairwise (fun x y => le x y = true) := by
  induction l with
  | nil => simp [jsSort]
  | cons a t ih => exact insertIn_pairwise le htot htrans a (jsSort le t) ih

/-! ### ArrayShuffler (shuffleArray)

```
if (!Array.isArray(array)) return [];
const rng = new Random(seed);
const newArr = [...array];
for (let i = newArr.length - 1; i > 0; i--) {
  const j = Math.floor(rng.next() * (i + 1));
  [newArr[i], newArr[j]] = [newArr[j], newArr[i]];
}
```

Elements are modelled as `Option α`, `none` being the JS value
`undefined`: when the RNG state is negative, `j` is negative,
`newArr[j]` reads `undefined` and the destructuring assignment stores it
into `newArr[i]` (the companion write to the negative index `j` creates
a plain object property that is invisible to the array elements).
The non-array guard never fires for a `List α` input. -/

/-- `l[i]` as a JS element read: out-of-range gives `undefined` (`none`). -/
def jsRead (l : List (Option α)) (i : Int) : Option α :=
  if 0 ≤ i then (l.get? i.toNat).join else none

/-- `l[i] = v` as a JS element write.  A negative index stores an object
property invisible to the array elements, and in `shuffleArray` the index
is always `< l.length`, so out-of-range writes leave the elements
unchanged (`List.set` is the identity past the end). -/
def jsWrite (l : List (Option α)) (i : Int) (v : Option α) : List (Option α) :=
  if 0 ≤ i then l.set i.toNat v else l

/-- `[newArr[i], newArr[j]] = [newArr[j], newArr[i]]`: both reads happen
before the two element writes (index `i` first, then `j`). -/
def jsSwap (l : List (Option α)) (i j : Int) : List (Option α) :=
  jsWrite (jsWrite l i (jsRead l j)) j (jsRead l i)

/-- The loop of `shuffleArray`, counting `i` down; the argument is the
current loop counter (the loop body runs only while `i > 0`). -/
def shuffleGo (s : Int) (l : List (Option α)) : Nat → List (Option α)
  | 0 => l
  | i + 1 =>
    let s1 := nextState s
    let j := floorScale s1 (i + 2)
    shuffleGo s1 (jsSwap l ((i : Int) + 1) j) i

/-- `shuffleArray`: seeded Fisher-Yates over a copy of the input. -/
def shuffleArray (l : List α) (seed : Int) : List (Option α) :=
  shuffleGo seed (l.map some) (l.length - 1)

theorem get_cons_set_perm (a : α) (l : List α) :
    ∀ (m : Nat) (hm : m < l.length),
      ((l.get ⟨m, hm⟩) :: l.set m a).Perm (a :: l) := by
  induction l with
  | nil => intro m hm; exact absurd hm (by simp)
  | cons y t ih =>
    intro m hm
    cases m with
    | zero => simpa using List.Perm.swap a y t
    | succ m =>
      have hm' : m < t.length := by simpa using hm
      have step : ((y :: t).get ⟨m + 1, hm⟩) = t.get ⟨m, hm'⟩ := rfl
      rw [step, List.set_cons_succ]
      exact (List.Perm.swap y (t.get ⟨m, hm'⟩) (t.set m a)).trans
        (((ih m hm').cons y).trans (List.Perm.swap a y t))

theorem set_set_swap_perm (l : List α) :
    ∀ (i j : Nat) (hi : i < l.length) (hj : j < l.length),
      ((l.set i (l.get ⟨j, hj⟩)).set j (l.get ⟨i, hi⟩)).Perm l := by
  induction l with
  | nil => intro i j hi; exact absurd hi (by simp)
  | cons x t ih =>
    intro i j hi hj
    cases i with
    | zero =>
      cases j with
      | zero => simp
      | succ m =>
        have hm : m < t.length := by simpa using hj
        simpa using get_cons_set_perm x t m hm
    | succ n =>
      have hn : n < t.length := by simpa using hi
      cases j with
      | zero =>
        simpa using get_cons_set_perm x t n hn
      | succ m =>
        have hm : m < t.length := by simpa using hj
        simpa using (ih n m hn hm).cons x

theorem jsSwap_perm (l : List (Option α)) (i j : Int)
    (hi0 : 0 ≤ i) (hi : i.toNat < l.length) (hj0 : 0 ≤ j) (hj : j.toNat < l.length) :
    (jsSwap l i j).Perm l := by
  have hread_j : jsRead l j = l.get ⟨j.toNat, hj⟩ := by
    unfold jsRead
    rw [if_pos hj0, List.get?_eq_get hj]
    rfl
  have hread_i : jsRead l i = l.get ⟨i.toNat, hi⟩ := by
    unfold jsRead
    rw [if_pos hi0, List.get?_eq_get hi]
    rfl
  unfold jsSwap jsWrite
  rw [if_pos hi0, if_pos hj0, hread_i, hread_j]
  exact set_set_swap_perm l i.toNat j.toNat hi hj

theorem shuffleGo_perm (l : List (Option α)) (s : Int) (i : Nat)
    (hs : 0 ≤ s) (hi : i < l.length) :
    (shuffleGo s l i).Perm l := by
  induction i generalizing l s with
  | zero => exact List.Perm.refl _
  | succ n ih =>
    unfold shuffleGo
    have h1 : 0 ≤ nextState s := nextState_nonneg s hs
    have h2 : nextState s < 233280 := nextState_lt s
    have hj0 : 0 ≤ floorScale (nextState s) (n + 2) :=
      floorScale_nonneg _ _ h1
    have hjlt : floorScale (nextState s) (n + 2) < ((n : Int) + 2) := by
      have := floorScale_lt (nextState s) (n + 2) h2 (by omega)
      omega
    have hswap : (jsSwap l ((n : Int) + 1) (floorScale (nextState s) (n + 2))).Perm l := by
      apply jsSwap_perm l _ _ (by omega) (by omega) hj0 (by omega)
    have hlen : n < (jsSwap l ((n : Int) + 1) (floorScale (nextState s) (n + 2))).length := by
      rw [hswap.length_eq]
      omega
    exact (ih _ _ h1 hlen).trans hswap

/-! ### Data model -/

/-- A vocabulary entry `{id, word, definition}` (the `id` plays no role in
the layout engine and is omitted). -/
structure WordPair where
  word : String
  definition : String
deriving DecidableEq

/-- Comparator-induced order of `sort((a, b) => b.word.length - a.word.length)`:
`a` may stay before `b` iff `b.word.length - a.word.length ≤ 0`. -/
def rawLenDesc (a b : WordPair) : Bool := decide (b.word.length ≤ a.word.length)

/-! ### WordSearchPlacer (generateWordSearch) -/

/-- A grid cell of the word-search grid: the initial empty string, a
single letter, or the JS value `undefined` (which the fill loop stores
when the RNG state is negative). -/
inductive Cell where
  | empty : Cell
  | letter : Char → Cell
  | undef : Cell
deriving DecidableEq

/-- `grid[y][x]` as an rvalue.  `none` means the row access already gave
`undefined`, so that reading `[x]` of it throws; `some Cell.undef`
means the row exists but the column is out of range (the read yields the
value `undefined`). -/
def readCell (g : List (List Cell)) (y x : Int) : Option Cell :=
  match if 0 ≤ y then g.get? y.toNat else none with
  | none => none
  | some row =>
    if 0 ≤ x then some (row.getD x.toNat Cell.undef) else some Cell.undef

/-- `grid[y][x] = c`.  Every write the generator performs is at indices
already validated in range, where this is `List.set` on the row. -/
def writeCell (g : List (List Cell)) (y x : Int) (c : Cell) : List (List Cell) :=
  if 0 ≤ y ∧ 0 ≤ x then g.set y.toNat ((g.getD y.toNat []).set x.toNat c) else g

/-- The 8 direction vectors, in source order. -/
def directions : List (Int × Int) :=
  [(1, 0), (0, 1), (1, 1), (1, -1), (-1, 0), (0, -1), (-1, -1), (-1, 1)]

/-- `list[i]` for a JS array index that may be negative: `none` is
`undefined` (and dereferencing it throws). -/
def jsIndex (l : List α) (i : Int) : Option α :=
  if 0 ≤ i then l.get? i.toNat else none

/-- A recorded word-search placement `{word, x, y, dx, dy}`. -/
structure WSEntry where
  word : List Char
  x : Int
  y : Int
  dx : Int
  dy : Int
deriving DecidableEq

/-- The per-cell collision test of an attempt:
`charAtGrid !== '' && charAtGrid !== term[i]` rejects the attempt;
`none` models the TypeError thrown when a row index is out of range. -/
def checkFits (g : List (List Cell)) (sx sy dx dy : Int) :
    List Char → Nat → Option Bool
  | [], _ => some true
  | c :: rest, i =>
    match readCell g (sy + i * dy) (sx + i * dx) with
    | none => none
    | some Cell.empty => checkFits g sx sy dx dy rest (i + 1)
    | some (Cell.letter c0) =>
      if c0 = c then checkFits g sx sy dx dy rest (i + 1) else some false
    | some Cell.undef => some false

/-- Write the letters of a fitting word along its path. -/
def writeWord (g : List (List Cell)) (sx sy dx dy : Int) :
    List Char → Nat → List (List Cell)
  | [], _ => g
  | c :: rest, i =>
    writeWord (writeCell g (sy + i * dy) (sx + i * dx) (Cell.letter c)) sx sy dx dy rest (i + 1)

/-- One word of the word-search placement loop: up to `fuel` (initially
100) attempts; each attempt draws a direction and a start cell.  `none`
models the TypeError thrown when `directions[...]` is `undefined` (a
negative RNG state) or a row read is out of range. -/
def tryPlace (size : Nat) (term : List Char) :
    Nat → Int → List (List Cell) → Option (Int × List (List Cell) × Option WSEntry)
  | 0, s, g => some (s, g, none)
  | fuel + 1, s, g =>
    let s1 := nextState s
    let di := floorScale s1 8
    let s2 := nextState s1
    let sx := floorScale s2 size
    let s3 := nextState s2
    let sy := floorScale s3 size
    match jsIndex directions di with
    | none => none
    | some d =>
      let ex := sx + ((term.length : Int) - 1) * d.1
      let ey := sy + ((term.length : Int) - 1) * d.2
      if 0 ≤ ex ∧ ex < (size : Int) ∧ 0 ≤ ey ∧ ey < (size : Int) then
        match checkFits g sx sy d.1 d.2 term 0 with
        | none => none
        | some true =>
          some (s3, writeWord g sx sy d.1 d.2 term 0, some ⟨term, sx, sy, d.1, d.2⟩)
        | some false => tryPlace size term fuel s3 g
      else tryPlace size term fuel s3 g

/-- The loop over the sorted word list, accumulating placed entries. -/
def placeWords (size : Nat) :
    List WordPair → Int → List (List Cell) → List WSEntry →
    Option (Int × List (List Cell) × List WSEntry)
  | [], s, g, acc => some (s, g, acc)
  | w :: rest, s, g, acc =>
    match tryPlace size (cleanWord w.word) 100 s g with
    | none => none
    | some (s1, g1, none) => placeWords size rest s1 g1 acc
    | some (s1, g1, some e) => placeWords size rest s1 g1 (acc ++ [e])

/-- `"ABCDEFGHIJKLMNOPQRSTUVWXYZ"` as a list of characters. -/
def alphabet : List Char := "ABCDEFGHIJKLMNOPQRSTUVWXYZ".toList

/-- The fill pass on one cell: an empty cell receives
`alphabet[Math.floor(rng.next() * 26)]` (the value `undefined` when the
index is negative); other cells are untouched and draw nothing. -/
def fillCell (s : Int) (c : Cell) : Int × Cell :=
  match c with
  | Cell.empty =>
    let s1 := nextState s
    let j := floorScale s1 26
    (s1, match jsIndex alphabet j with
         | some a => Cell.letter a
         | none => Cell.undef)
  | c => (s, c)

/-- The fill pass on one row (x increasing). -/
def fillRow : Int → List Cell → Int × List Cell
  | s, [] => (s, [])
  | s, c :: r =>
    let p := fillCell s c
    let q := fillRow p.1 r
    (q.1, p.2 :: q.2)

/-- The fill pass on the whole grid (y increasing). -/
def fillGrid : Int → List (List Cell) → Int × List (List Cell)
  | s, [] => (s, [])
  | s, row :: rest =>
    let p := fillRow s row
    let q := fillGrid p.1 rest
    (q.1, p.2 :: q.2)

/-- The word-search output `{grid, placedWords}`. -/
structure WSResult where
  grid : List (List Cell)
  placedWords : List WSEntry
deriving DecidableEq

/-- The initial `size × size` grid of empty strings. -/
def mkGrid (size : Nat) : List (List Cell) :=
  List.replicate size (List.replicate size Cell.empty)

/-- `generateWordSearch(words, size, seed)`; `none` models a thrown
TypeError (possible only for negative RNG states). -/
def generateWordSearch (words : List WordPair) (size : Nat) (seed : Int) :
    Option WSResult :=
  match placeWords size (jsSort rawLenDesc words) seed (mkGrid size) [] with
  | none => none
  | some (s, g, placed) => some ⟨(fillGrid s g).2, placed⟩

/-- The placement list of a word-search call, empty when the call throws. -/
def wsPlaced (r : Option WSResult) : List WSEntry :=
  match r with
  | none => []
  | some r => r.placedWords

/-- The grid of a word-search call, empty when the call throws. -/
def wsGrid (r : Option WSResult) : List (List Cell) :=
  match r with
  | none => []
  | some r => r.grid

/-! ### CrosswordPlacer (generateCrossword)

The virtual canvas is `gridSize = 40`, `center = 20`.  Internally only the
`char` field of a virtual grid cell is ever read or written (the stored
`x`/`y` of a virtual cell are overwritten by the spread at crop time), so
the virtual grid is a 40×40 matrix of `Option Char` (`none` = JS `null`).
-/

/-- A cropped-output grid cell `{char, x, y}` with post-crop coordinates. -/
structure CWCell where
  char : Option Char
  x : Nat
  y : Nat
deriving DecidableEq

/-- Placement direction. -/
inductive Dir where
  | across : Dir
  | down : Dir
deriving DecidableEq

/-- A crossword placement before clue numbers are assigned. -/
structure CWPre where
  word : List Char
  clue : String
  x : Int
  y : Int
  dir : Dir
deriving DecidableEq

/-- A crossword placement with its clue number. -/
structure CWEntry where
  word : List Char
  clue : String
  x : Int
  y : Int
  dir : Dir
  number : Nat
deriving DecidableEq

/-- The crossword output `{grid, placedWords, width, height}`. -/
structure CrosswordLayout where
  grid : List (List CWCell)
  placedWords : List CWEntry
  width : Int
  height : Int
deriving DecidableEq

/-- `grid[y]?.[x]?.char` (and also plain `grid[y][x].char` at validated
in-range indices): `none` for JS `null`, for an out-of-range read and for
the optional-chaining short-circuit alike. -/
def charAt (g : List (List (Option Char))) (y x : Int) : Option Char :=
  if 0 ≤ y ∧ 0 ≤ x then (g.getD y.toNat []).getD x.toNat none else none

/-- `grid[y][x].char = c`; every such write in the generator is at indices
already validated to be in `[0, 40)`. -/
def writeChar (g : List (List (Option Char))) (y x : Int) (c : Char) :
    List (List (Option Char)) :=
  if 0 ≤ y ∧ 0 ≤ x then g.set y.toNat ((g.getD y.toNat []).set x.toNat (some c)) else g

/-- The initial 40×40 virtual grid, every `char` null. -/
def mkCWGrid : List (List (Option Char)) :=
  List.replicate 40 (List.replicate 40 (none : Option Char))

/-- Truthiness of a neighbour read: a single letter is truthy, `null` and
`undefined` are falsy. -/
def occupied (g : List (List (Option Char))) (y x : Int) : Bool :=
  (charAt g y x).isSome

/-- Writing the first word at row `20` from column `startX` rightward.
`grid[center][startX + i].char = term[i]` throws a TypeError when the
column index is outside `[0, 40)` (the cell is `undefined`); `none`
models that throw. -/
def placeFirstGo (g : List (List (Option Char))) (x : Int) :
    List Char → Option (List (List (Option Char)))
  | [] => some g
  | c :: rest =>
    if 0 ≤ x ∧ x < 40 then placeFirstGo (writeChar g 20 x c) (x + 1) rest
    else none

/-- The row-major list of currently filled cells, as `{x, y}` pairs. -/
def scanOrder (g : List (List (Option Char))) : List (Int × Int) :=
  (List.range 40).flatMap (fun y =>
    (List.range 40).filterMap (fun x =>
      if (charAt g (y : Int) (x : Int)).isSome then some ((x : Int), (y : Int))
      else none))

/-- All indices of `c` in `term`, in increasing order. -/
def possibleIndices (term : List Char) (c : Char) : List Nat :=
  (List.range term.length).filter (fun k => decide (term.getD k c = c))

/-- The x coordinate of the `k`-th letter of a word starting at `sx`. -/
def cwPosX (sx : Int) (d : Dir) (k : Nat) : Int :=
  match d with
  | Dir.across => sx + k
  | Dir.down => sx

/-- The y coordinate of the `k`-th letter of a word starting at `sy`. -/
def cwPosY (sy : Int) (d : Dir) (k : Nat) : Int :=
  match d with
  | Dir.across => sy
  | Dir.down => sy + k

/-- The per-letter validation loop of a candidate crossword placement:
bounds, letter collision, perpendicular adjacency for cells that are
empty, and the cell before the first / after the last letter. -/
def cwFits (g : List (List (Option Char))) (sx sy : Int) (d : Dir) (len : Nat) :
    List Char → Nat → Bool
  | [], _ => true
  | c :: rest, k =>
    let cx := cwPosX sx d k
    let cy := cwPosY sy d k
    if ¬(0 ≤ cx ∧ cx < 40 ∧ 0 ≤ cy ∧ cy < 40) then false
    else
      let cell := charAt g cy cx
      let n1 := match d with
        | Dir.across => charAt g (cy - 1) cx
        | Dir.down => charAt g cy (cx - 1)
      let n2 := match d with
        | Dir.across => charAt g (cy + 1) cx
        | Dir.down => charAt g cy (cx + 1)
      let prev := match d with
        | Dir.across => charAt g cy (cx - 1)
        | Dir.down => charAt g (cy - 1) cx
      let next := match d with
        | Dir.across => charAt g cy (cx + 1)
        | Dir.down => charAt g (cy + 1) cx
      if cell ≠ none ∧ cell ≠ some c then false
      else if cell = none ∧ (n1 ≠ none ∨ n2 ≠ none) then false
      else if k = 0 ∧ prev ≠ none then false
      else if k = len - 1 ∧ next ≠ none then false
      else cwFits g sx sy d len rest (k + 1)

/-- Write a fitting word into the virtual grid. -/
def cwWrite (g : List (List (Option Char))) (sx sy : Int) (d : Dir) :
    List Char → Nat → List (List (Option Char))
  | [], _ => g
  | c :: rest, k =>
    cwWrite (writeChar g (cwPosY sy d k) (cwPosX sx d k) c) sx sy d rest (k + 1)

/-- One intersection candidate: infer the direction from the anchor's
neighbours (drawing from the RNG only when both axes are free), then
validate and, on success, place. -/
def cwAttempt (g : List (List (Option Char))) (term : List Char) (clue : String)
    (x y : Int) (k : Nat) (d : Dir) :
    Option (List (List (Option Char)) × CWPre) :=
  let sx := match d with
    | Dir.across => x - k
    | Dir.down => x
  let sy := match d with
    | Dir.across => y
    | Dir.down => y - k
  if cwFits g sx sy d term.length term 0 then
    some (cwWrite g sx sy d term 0, ⟨term, clue, sx, sy, d⟩)
  else none

/-- The loop over the anchor letter's indices in the candidate word. -/
def tryIndices (term : List Char) (clue : String) (x y : Int) :
    List Nat → Int → List (List (Option Char)) →
    Int × Option (List (List (Option Char)) × CWPre)
  | [], s, _ => (s, none)
  | k :: rest, s, g =>
    let occH := occupied g y (x + 1) || occupied g y (x - 1)
    let occV := occupied g (y + 1) x || occupied g (y - 1) x
    if occH && !occV then
      match cwAttempt g term clue x y k Dir.down with
      | some r => (s, some r)
      | none => tryIndices term clue x y rest s g
    else if occV && !occH then
      match cwAttempt g term clue x y k Dir.across with
      | some r => (s, some r)
      | none => tryIndices term clue x y rest s g
    else if !occH && !occV then
      let s1 := nextState s
      match cwAttempt g term clue x y k (if gtHalf s1 then Dir.across else Dir.down) with
      | some r => (s1, some r)
      | none => tryIndices term clue x y rest s1 g
    else tryIndices term clue x y rest s g

/-- The scan over filled cells for one candidate word; stops at the first
successful placement. -/
def tryScan (term : List Char) (clue : String) :
    List (Int × Int) → Int → List (List (Option Char)) →
    Int × Option (List (List (Option Char)) × CWPre)
  | [], s, _ => (s, none)
  | p :: rest, s, g =>
    match charAt g p.2 p.1 with
    | some cc =>
      if term.contains cc then
        match tryIndices term clue p.1 p.2 (possibleIndices term cc) s g with
        | (s1, some r) => (s1, some r)
        | (s1, none) => tryScan term clue rest s1 g
      else tryScan term clue rest s g
    | none => tryScan term clue rest s g

/-- The loop placing every word after the first. -/
def placeRest :
    List WordPair → Int → List (List (Option Char)) → List CWPre →
    Int × List (List (Option Char)) × List CWPre
  | [], s, g, acc => (s, g, acc)
  | w :: rest, s, g, acc =>
    match tryScan (cleanWord w.word) w.definition (scanOrder g) s g with
    | (s1, none) => placeRest rest s1 g acc
    | (s1, some (g1, e)) => placeRest rest s1 g1 (acc ++ [e])

/-- The exclusive x extent recorded for a placement by the crop pass. -/
def wordSpanX (w : CWPre) : Int :=
  match w.dir with
  | Dir.across => w.x + w.word.length
  | Dir.down => w.x + 1

/-- The exclusive y extent recorded for a placement by the crop pass. -/
def wordSpanY (w : CWPre) : Int :=
  match w.dir with
  | Dir.across => w.y + 1
  | Dir.down => w.y + w.word.length

/-- The comparator `(a, b) => a.y - b.y || a.x - b.x` on start cells. -/
def lexYX (a b : Int × Int) : Bool :=
  decide (a.2 < b.2 ∨ (a.2 = b.2 ∧ a.1 ≤ b.1))

/-- JS `Set` iteration order: first occurrences, in insertion order. -/
def dedupFirst (seen : List (Int × Int)) : List (Int × Int) → List (Int × Int)
  | [] => []
  | p :: rest =>
    if p ∈ seen then dedupFirst seen rest else p :: dedupFirst (p :: seen) rest

/-- Index of the first occurrence of `p` (the `numberMap` lookup; every
looked-up start is present in the list). -/
def posIdx : List (Int × Int) → (Int × Int) → Nat
  | [], _ => 0
  | q :: rest, p => if q = p then 0 else posIdx rest p + 1

/-- Crop to the padded bounding box of the placed words, shift the
entries, and assign clue numbers by (y, x)-sorted distinct start cells.
`Array(height)` / `Array(width)` throw a RangeError when their argument
is negative, which happens exactly when no word was placed; `none`
models that throw. -/
def cropLayout (g : List (List (Option Char))) (placed : List CWPre) :
    Option CrosswordLayout :=
  let minX0 := placed.foldl (fun m w => min m w.x) 40
  let maxX := placed.foldl (fun m w => max m (wordSpanX w)) 0
  let minY0 := placed.foldl (fun m w => min m w.y) 40
  let maxY := placed.foldl (fun m w => max m (wordSpanY w)) 0
  let minX := max 0 (minX0 - 1)
  let minY := max 0 (minY0 - 1)
  let width := (maxX - minX) + 2
  let height := (maxY - minY) + 2
  if 0 ≤ width ∧ 0 ≤ height then
    let grid := (List.range height.toNat).map (fun (cy : Nat) =>
      (List.range width.toNat).map (fun (cx : Nat) =>
        if (cy : Int) + minY < 40 ∧ (cx : Int) + minX < 40 then
          CWCell.mk (charAt g ((cy : Int) + minY) ((cx : Int) + minX)) cx cy
        else CWCell.mk none cx cy))
    let shifted := placed.map (fun w =>
      CWPre.mk w.word w.clue (w.x - minX) (w.y - minY) w.dir)
    let starts := dedupFirst [] (shifted.map (fun w => (w.x, w.y)))
    let sortedStarts := jsSort lexYX starts
    let finalWords := shifted.map (fun w =>
      CWEntry.mk w.word w.clue w.x w.y w.dir (posIdx sortedStarts (w.x, w.y) + 1))
    some ⟨grid, finalWords, width, height⟩
  else none

/-- `generateCrossword(words, seed)`; `none` models a thrown exception
(RangeError on the empty word list, TypeError when the first word is
longer than the canvas). -/
def generateCrossword (words : List WordPair) (seed : Int) :
    Option CrosswordLayout :=
  match jsSort rawLenDesc words with
  | [] => cropLayout mkCWGrid []
  | first :: rest =>
    let term := cleanWord first.word
    let startX : Int := 20 - ((term.length / 2 : Nat) : Int)
    match placeFirstGo mkCWGrid startX term with
    | none => none
    | some g1 =>
      let r := placeRest rest seed g1 [CWPre.mk term first.definition startX 20 Dir.across]
      cropLayout r.2.1 r.2.2

/-- The placement list of a crossword call, empty when the call throws. -/
def cwEntries (r : Option CrosswordLayout) : List CWEntry :=
  match r with
  | none => []
  | some L => L.placedWords

/-- The cropped grid of a crossword call, empty when the call throws. -/
def cwGridOf (r : Option CrosswordLayout) : List (List CWCell) :=
  match r with
  | none => []
  | some L => L.grid

/-- The reported width of a crossword call. -/
def cwWidth (r : Option CrosswordLayout) : Option Int :=
  match r with
  | none => none
  | some L => some L.width

/-- The reported height of a crossword call. -/
def cwHeight (r : Option CrosswordLayout) : Option Int :=
  match r with
  | none => none
  | some L => some L.height

/-- The `char` of the cropped grid cell at row `y`, column `x`; `none`
when the coordinates fall outside the grid. -/
def cwCellChar (gr : List (List CWCell)) (y x : Int) : Option Char :=
  if 0 ≤ y ∧ 0 ≤ x then ((gr.getD y.toNat []).getD x.toNat (CWCell.mk none 0 0)).char
  else none

/-! ### Claim theorems: easy group (C1, C9, C4, C5, C2) -/

/-- Claim C1: the claim says `generateCrossword([], seed)` returns an
empty placedWords list and a minimal grid without throwing.  The code
instead computes `width = height = -37` for the empty list and
`Array(-37)` throws a RangeError, for every seed. -/
theorem generateCrossword_empty_list_throws :
    ∀ seed : Int, generateCrossword [] seed = none :=
  fun _ => rfl

/-- Claim C9: word-search generation is deterministic — two calls with
equal word lists, equal sizes and equal seeds return equal results (the
embedding shows the output depends on nothing but the three arguments). -/
theorem generateWordSearch_deterministic
    (w1 w2 : List WordPair) (n1 n2 : Nat) (s1 s2 : Int)
    (hw : w1 = w2) (hn : n1 = n2) (hs : s1 = s2) :
    generateWordSearch w1 n1 s1 = generateWordSearch w2 n2 s2 := by
  rw [hw, hn, hs]

/-- Witness for C9 at concrete arguments. -/
theorem generateWordSearch_deterministic_witness :
    generateWordSearch [⟨"CAT", "d"⟩] 5 1 = generateWordSearch [⟨"CAT", "d"⟩] 5 1 :=
  generateWordSearch_deterministic [⟨"CAT", "d"⟩] [⟨"CAT", "d"⟩] 5 5 1 1 rfl rfl rfl

/-- Counterexample to claim C4 as stated: constructed from the integer
seed `-10`, the first call to `next` returns `-43713 / 233280 < 0`,
outside `[0, 1)` (JS `%` keeps the sign of the dividend). -/
theorem random_negative_seed_out_of_range :
    (Random.next ⟨-10⟩).1 < 0 ∧
      ¬(0 ≤ (Random.next ⟨-10⟩).1 ∧ (Random.next ⟨-10⟩).1 < 1) := by
  have hst : nextState (-10) = -43713 := by decide
  have hv : (Random.next ⟨-10⟩).1 = ((-43713 : Int) : ℚ) / 233280 := by
    show randValue (nextState (-10)) = _
    rw [hst, randValue]
  have hneg : (Random.next ⟨-10⟩).1 < 0 := by
    rw [hv]
    norm_num
  exact ⟨hneg, fun h => absurd h.1 (not_le.mpr hneg)⟩

/-- Claim C4, amended to nonnegative seeds: from a state `s ≥ 0`, `next`
advances by the claimed recurrence (the truncating JS remainder agrees
with mathematical mod on nonnegative dividends), keeps the state
nonnegative, returns exactly `state / 233280`, and that value is in
`[0, 1)`; two instances with equal seeds behave identically. -/
theorem random_next_contract_nonneg_seed (s : Int) (hs : 0 ≤ s) :
    (0 ≤ (Random.next ⟨s⟩).1 ∧ (Random.next ⟨s⟩).1 < 1) ∧
      (Random.next ⟨s⟩).2.seed = (s * 9301 + 49297) % 233280 ∧
      0 ≤ (Random.next ⟨s⟩).2.seed ∧
      (Random.next ⟨s⟩).1 = (((Random.next ⟨s⟩).2.seed : Int) : ℚ) / 233280 ∧
      (∀ r1 r2 : Random, r1.seed = r2.seed → Random.next r1 = Random.next r2) := by
  have h0 : 0 ≤ nextState s := nextState_nonneg s hs
  have h1 : nextState s < 233280 := nextState_lt s
  refine ⟨⟨?_, ?_⟩, ?_, ?_, ?_, ?_⟩
  · exact div_nonneg (by exact_mod_cast h0) (by norm_num)
  · rw [Random.next, randValue]
    rw [div_lt_one (by norm_num)]
    exact_mod_cast h1
  · exact nextState_eq_emod s hs
  · exact h0
  · rfl
  · intro r1 r2 h
    cases r1
    cases r2
    simp only [Random.mk.injEq] at h
    rw [h]

/-- Witness for C4 at seed 3. -/
theorem random_next_contract_nonneg_seed_witness :
    (0 ≤ (Random.next ⟨3⟩).1 ∧ (Random.next ⟨3⟩).1 < 1) ∧
      (Random.next ⟨3⟩).2.seed = (3 * 9301 + 49297) % 233280 ∧
      0 ≤ (Random.next ⟨3⟩).2.seed ∧
      (Random.next ⟨3⟩).1 = (((Random.next ⟨3⟩).2.seed : Int) : ℚ) / 233280 ∧
      (∀ r1 r2 : Random, r1.seed = r2.seed → Random.next r1 = Random.next r2) :=
  random_next_contract_nonneg_seed 3 (by norm_num)

/-- Counterexample to claim C5 as stated: at seed `-10` the first drawn
index is `-1`, the JS read `newArr[-1]` yields `undefined`, and the
shuffle of `[0, 1]` returns `[0, undefined]` — not a permutation of the
input. -/
theorem shuffleArray_negative_seed_not_permutation :
    shuffleArray [0, 1] (-10) = [some 0, none] ∧
      ¬(shuffleArray [0, 1] (-10)).Perm ([0, 1].map some) := by
  constructor
  · rfl
  · decide

/-- Claim C5, amended to nonnegative seeds: for every list and every
seed `≥ 0`, `shuffleArray` returns a permutation of the input (same
multiset of elements, same length), each element still present (wrapped
in `some`, no `undefined` introduced). -/
theorem shuffleArray_permutation_nonneg_seed {α : Type} (l : List α) (s : Int)
    (hs : 0 ≤ s) :
    (shuffleArray l s).Perm (l.map some) ∧ (shuffleArray l s).length = l.length := by
  have hperm : (shuffleArray l s).Perm (l.map some) := by
    unfold shuffleArray
    cases l with
    | nil => exact List.Perm.refl _
    | cons a t =>
      apply shuffleGo_perm
      · exact hs
      · simp
  refine ⟨hperm, ?_⟩
  rw [hperm.length_eq, List.length_map]

/-- Witness for C5 at a concrete list and seed. -/
theorem shuffleArray_permutation_nonneg_seed_witness :
    (shuffleArray [10, 20, 30] 7).Perm ([10, 20, 30].map some) ∧
      (shuffleArray [10, 20, 30] 7).length = [10, 20, 30].length :=
  shuffleArray_permutation_nonneg_seed [10, 20, 30] 7 (by norm_num)

/-- Counterexample to claim C2 as stated: at seed 0 the single-word
crossword for ROBOT has width 8 and height 4, not the claimed
`5 + 2 = 7` and `1 + 2 = 3` (the crop records an exclusive right/bottom
bound and then adds two, leaving 2 cells of padding on those sides). -/
theorem crossword_robot_claimed_dims_false :
    cwWidth (generateCrossword [⟨"ROBOT", "rob"⟩] 0) = some 8 ∧
      cwHeight (generateCrossword [⟨"ROBOT", "rob"⟩] 0) = some 4 ∧
      cwWidth (generateCrossword [⟨"ROBOT", "rob"⟩] 0) ≠ some 7 ∧
      cwHeight (generateCrossword [⟨"ROBOT", "rob"⟩] 0) ≠ some 3 := by
  have hw : cwWidth (generateCrossword [⟨"ROBOT", "rob"⟩] 0) = some 8 := rfl
  have hh : cwHeight (generateCrossword [⟨"ROBOT", "rob"⟩] 0) = some 4 := rfl
  refine ⟨hw, hh, ?_, ?_⟩
  · rw [hw]
    decide
  · rw [hh]
    decide

/-- Claim C2, amended: for every seed, the single-word crossword for
ROBOT places the word horizontally (across) starting at column
`20 - ⌊5/2⌋ = 18` of the centre row 20 of the 40×40 virtual canvas, and
the cropped layout has width 8 (5 letters, 1 cell of left padding, 2 of
right padding) and height 4 (1 row, 1 cell above, 2 below), the sole
entry sitting at cropped coordinates (1, 1) with number 1. -/
theorem crossword_robot_layout (s : Int) :
    cwWidth (generateCrossword [⟨"ROBOT", "rob"⟩] s) = some 8 ∧
      cwHeight (generateCrossword [⟨"ROBOT", "rob"⟩] s) = some 4 ∧
      cwEntries (generateCrossword [⟨"ROBOT", "rob"⟩] s) =
        [CWEntry.mk (cleanWord "ROBOT") "rob" 1 1 Dir.across 1] ∧
      cleanWord "ROBOT" = ['R', 'O', 'B', 'O', 'T'] ∧
      (20 - (((cleanWord "ROBOT").length / 2 : Nat) : Int)) = 18 :=
  ⟨rfl, rfl, rfl, rfl, rfl⟩

/-! ### Claim C3: placement order -/

/-- The order the claim asserts (modelled from the spec's words, for
comparison): sort by the length of `cleanWord(word)` descending. -/
def normLenDesc (a b : WordPair) : Bool :=
  decide ((cleanWord b.word).length ≤ (cleanWord a.word).length)

theorem tryPlace_entry_word (size : Nat) (term : List Char) :
    ∀ (fuel : Nat) (s : Int) (g : List (List Cell)) s1 g1 (e : WSEntry),
      tryPlace size term fuel s g = some (s1, g1, some e) → e.word = term := by
  intro fuel
  induction fuel with
  | zero =>
    intro s g s1 g1 e h
    simp [tryPlace] at h
  | succ n ih =>
    intro s g s1 g1 e h
    unfold tryPlace at h
    dsimp only at h
    split at h
    · exact absurd h (by simp)
    · split at h
      · split at h
        · exact absurd h (by simp)
        · simp only [Option.some.injEq, Prod.mk.injEq] at h
          rw [← h.2.2]
        · exact ih _ _ _ _ _ h
      · exact ih _ _ _ _ _ h

theorem placeWords_out (size : Nat) :
    ∀ (ws : List WordPair) (s : Int) (g : List (List Cell))
      (acc : List WSEntry) s1 g1 (out : List WSEntry),
      placeWords size ws s g acc = some (s1, g1, out) →
      ∃ t, out = acc ++ t ∧
        (t.map (fun e => e.word)).Sublist (ws.map (fun p => cleanWord p.word)) := by
  intro ws
  induction ws with
  | nil =>
    intro s g acc s1 g1 out h
    simp only [placeWords, Option.some.injEq, Prod.mk.injEq] at h
    exact ⟨[], by simp [← h.2.2], by simp⟩
  | cons w rest ih =>
    intro s g acc s1 g1 out h
    unfold placeWords at h
    split at h
    · exact absurd h (by simp)
    · rcases ih _ _ _ _ _ _ h with ⟨t, ht, hsub⟩
      exact ⟨t, ht, List.Sublist.cons _ hsub⟩
    · rename_i s2 g2 e heq
      rcases ih _ _ _ _ _ _ h with ⟨t, ht, hsub⟩
      refine ⟨e :: t, by simpa using ht, ?_⟩
      have hw : e.word = cleanWord w.word := tryPlace_entry_word size _ _ _ _ _ _ _ heq
      simpa [hw] using List.Sublist.cons₂ (cleanWord w.word) hsub

theorem cwAttempt_entry_word (g : List (List (Option Char))) (term : List Char)
    (clue : String) (x y : Int) (k : Nat) (d : Dir) (g1 : List (List (Option Char)))
    (e : CWPre) (h : cwAttempt g term clue x y k d = some (g1, e)) :
    e.word = term := by
  unfold cwAttempt at h
  dsimp only at h
  split at h
  · simp only [Option.some.injEq, Prod.mk.injEq] at h
    rw [← h.2]
  · exact absurd h (by simp)

theorem tryIndices_entry_word (term : List Char) (clue : String) (x y : Int) :
    ∀ (ks : List Nat) (s : Int) (g : List (List (Option Char))) s1 g1 (e : CWPre),
      tryIndices term clue x y ks s g = (s1, some (g1, e)) → e.word = term := by
  intro ks
  induction ks with
  | nil =>
    intro s g s1 g1 e h
    simp [tryIndices] at h
  | cons k rest ih =>
    intro s g s1 g1 e h
    unfold tryIndices at h
    dsimp only at h
    split at h
    · split at h
      · rename_i r heq
        simp only [Prod.mk.injEq, Option.some.injEq] at h
        rcases r with ⟨ga, ea⟩
        have hthis : ea.word = term := cwAttempt_entry_word _ _ _ _ _ _ _ _ _ heq
        have he : ea = e := congrArg Prod.snd h.2
        rw [← he]
        exact hthis
      · exact ih _ _ _ _ _ h
    · split at h
      · split at h
        · rename_i r heq
          simp only [Prod.mk.injEq, Option.some.injEq] at h
          rcases r with ⟨ga, ea⟩
          have hthis : ea.word = term := cwAttempt_entry_word _ _ _ _ _ _ _ _ _ heq
          have he : ea = e := congrArg Prod.snd h.2
          rw [← he]
          exact hthis
        · exact ih _ _ _ _ _ h
      · split at h
        · split at h
          · rename_i r heq
            simp only [Prod.mk.injEq, Option.some.injEq] at h
            rcases r with ⟨ga, ea⟩
            have hthis : ea.word = term := cwAttempt_entry_word _ _ _ _ _ _ _ _ _ heq
            have he : ea = e := congrArg Prod.snd h.2
            rw [← he]
            exact hthis
          · exact ih _ _ _ _ _ h
        · exact ih _ _ _ _ _ h

theorem tryScan_entry_word (term : List Char) (clue : String) :
    ∀ (ps : List (Int × Int)) (s : Int) (g : List (List (Option Char))) s1 g1 (e : CWPre),
      tryScan term clue ps s g = (s1, some (g1, e)) → e.word = term := by
  intro ps
  induction ps with
  | nil =>
    intro s g s1 g1 e h
    simp [tryScan] at h
  | cons p rest ih =>
    intro s g s1 g1 e h
    unfold tryScan at h
    split at h
    · rename_i cc heq
      split at h
      · split at h
        · rename_i s2 r heq2
          simp only [Prod.mk.injEq, Option.some.injEq] at h
          rcases h with ⟨h1, h2⟩
          subst h1
          have he : r = (g1, e) := h2
          have hthis : r.2.word = term :=
            tryIndices_entry_word term clue p.1 p.2 _ _ _ _ r.1 r.2 heq2
          rw [he] at hthis
          exact hthis
        · exact ih _ _ _ _ _ h
      · exact ih _ _ _ _ _ h
    · exact ih _ _ _ _ _ h

theorem placeRest_out :
    ∀ (ws : List WordPair) (s : Int) (g : List (List (Option Char)))
      (acc : List CWPre) s1 g1 (out : List CWPre),
      placeRest ws s g acc = (s1, g1, out) →
      ∃ t, out = acc ++ t ∧
        (t.map (fun e => e.word)).Sublist (ws.map (fun p => cleanWord p.word)) := by
  intro ws
  induction ws with
  | nil =>
    intro s g acc s1 g1 out h
    simp only [placeRest, Prod.mk.injEq] at h
    exact ⟨[], by simp [← h.2.2], by simp⟩
  | cons w rest ih =>
    intro s g acc s1 g1 out h
    unfold placeRest at h
    split at h
    · rcases ih _ _ _ _ _ _ h with ⟨t, ht, hsub⟩
      exact ⟨t, ht, List.Sublist.cons _ hsub⟩
    · rename_i s2 g2 e heq
      rcases ih _ _ _ _ _ _ h with ⟨t, ht, hsub⟩
      refine ⟨e :: t, by simpa using ht, ?_⟩
      have hw : e.word = cleanWord w.word := tryScan_entry_word _ _ _ _ _ _ _ _ heq
      simpa [hw] using List.Sublist.cons₂ (cleanWord w.word) hsub

theorem cropLayout_words (g : List (List (Option Char))) (placed : List CWPre)
    (L : CrosswordLayout) (h : cropLayout g placed = some L) :
    L.placedWords.map (fun e => e.word) = placed.map (fun e => e.word) := by
  unfold cropLayout at h
  dsimp only at h
  split at h
  · simp only [Option.some.injEq] at h
    rw [← h]
    simp [List.map_map]
  · exact absurd h (by simp)

theorem wordsearch_placed_sublist (w : List WordPair) (n : Nat) (s : Int) :
    ((wsPlaced (generateWordSearch w n s)).map (fun e => e.word)).Sublist
      ((jsSort rawLenDesc w).map (fun p => cleanWord p.word)) := by
  unfold generateWordSearch
  cases hp : placeWords n (jsSort rawLenDesc w) s (mkGrid n) [] with
  | none => simp [wsPlaced]
  | some r =>
    obtain ⟨sa, ga, out⟩ := r
    rcases placeWords_out n _ _ _ _ _ _ _ hp with ⟨t, ht, hsub⟩
    simp only [List.nil_append] at ht
    subst ht
    simpa [wsPlaced] using hsub

theorem crossword_placed_sublist (w : List WordPair) (s : Int) :
    ((cwEntries (generateCrossword w s)).map (fun e => e.word)).Sublist
      ((jsSort rawLenDesc w).map (fun p => cleanWord p.word)) := by
  unfold generateCrossword
  cases hsort : jsSort rawLenDesc w with
  | nil =>
    simp only [cwEntries]
    rw [show cropLayout mkCWGrid [] = none from rfl]
    simp
  | cons first rest =>
    dsimp only
    cases hpf : placeFirstGo mkCWGrid (20 - (((cleanWord first.word).length / 2 : Nat) : Int))
        (cleanWord first.word) with
    | none => simp [cwEntries]
    | some g1 =>
      dsimp only
      rcases placeRest_out rest s g1
          [CWPre.mk (cleanWord first.word) first.definition
            (20 - (((cleanWord first.word).length / 2 : Nat) : Int)) 20 Dir.across]
          _ _ _ rfl with ⟨t, ht, hsub⟩
      cases hcl : cropLayout
          (placeRest rest s g1
            [CWPre.mk (cleanWord first.word) first.definition
              (20 - (((cleanWord first.word).length / 2 : Nat) : Int)) 20 Dir.across]).2.1
          (placeRest rest s g1
            [CWPre.mk (cleanWord first.word) first.definition
              (20 - (((cleanWord first.word).length / 2 : Nat) : Int)) 20 Dir.across]).2.2 with
      | none => simp [cwEntries]
      | some L =>
        have hwords := cropLayout_words _ _ _ hcl
        simp only [cwEntries]
        rw [hwords, ht]
        simpa using List.Sublist.cons₂ (cleanWord first.word) hsub

/-- Counterexample to claim C3 as stated: the generators sort by the RAW
`word.length`, not by the normalized length.  With the input
`[{word:"AB--"}, {word:"CAT"}]` (raw lengths 4 and 3, normalized lengths
2 and 3) the word search attempts and places AB first, while the
claimed normalized-length order would put CAT first. -/
theorem sort_not_by_normalized_length :
    (wsPlaced (generateWordSearch [⟨"AB--", "d"⟩, ⟨"CAT", "d"⟩] 10 1)).map
        (fun e => e.word) = [['A', 'B'], ['C', 'A', 'T']] ∧
      (jsSort normLenDesc [⟨"AB--", "d"⟩, ⟨"CAT", "d"⟩]).map
        (fun p => cleanWord p.word) = [['C', 'A', 'T'], ['A', 'B']] ∧
      (wsPlaced (generateWordSearch [⟨"AB--", "d"⟩, ⟨"CAT", "d"⟩] 10 1)).map
        (fun e => e.word) ≠
        (jsSort normLenDesc [⟨"AB--", "d"⟩, ⟨"CAT", "d"⟩]).map
          (fun p => cleanWord p.word) := by
  refine ⟨?_, ?_, ?_⟩
  · rfl
  · rfl
  · intro hcontra
    rw [show (wsPlaced (generateWordSearch [⟨"AB--", "d"⟩, ⟨"CAT", "d"⟩] 10 1)).map
        (fun e => e.word) = [['A', 'B'], ['C', 'A', 'T']] from rfl] at hcontra
    rw [show (jsSort normLenDesc [⟨"AB--", "d"⟩, ⟨"CAT", "d"⟩]).map
        (fun p => cleanWord p.word) = [['C', 'A', 'T'], ['A', 'B']] from rfl] at hcontra
    exact absurd hcontra (by decide)

/-- Claim C3, amended: both generators attempt placements in the order
given by the stable sort of the input by RAW `word.length` descending
(not the normalized length): the sort is a permutation of the input,
raw lengths are nonincreasing along it, and each generator's placed
words are (in order) a sublist of the normalized words of that sorted
list. -/
theorem generators_attempt_in_raw_length_order
    (w : List WordPair) (n : Nat) (s1 s2 : Int) :
    (jsSort rawLenDesc w).Perm w ∧
      (jsSort rawLenDesc w).Pairwise (fun a b => b.word.length ≤ a.word.length) ∧
      ((wsPlaced (generateWordSearch w n s1)).map (fun e => e.word)).Sublist
        ((jsSort rawLenDesc w).map (fun p => cleanWord p.word)) ∧
      ((cwEntries (generateCrossword w s2)).map (fun e => e.word)).Sublist
        ((jsSort rawLenDesc w).map (fun p => cleanWord p.word)) := by
  refine ⟨jsSort_perm _ _, ?_, wordsearch_placed_sublist w n s1,
    crossword_placed_sublist w s2⟩
  have h := jsSort_pairwise rawLenDesc
    (fun a b => by
      unfold rawLenDesc
      rcases le_total b.word.length a.word.length with h | h
      · exact Or.inl (by simpa using h)
      · exact Or.inr (by simpa using h))
    (fun a b c hab hbc => by
      unfold rawLenDesc at hab hbc ⊢
      simp only [decide_eq_true_eq] at hab hbc ⊢
      omega)
    w
  exact h.imp (fun hx => by simpa [rawLenDesc] using hx)

/-! ### Word-search invariants (claims C6, C7) -/

/-- Well-formedness of the word-search grid: `size` rows of `size` cells. -/
def gridShape (g : List (List Cell)) (n : Nat) : Prop :=
  g.length = n ∧ ∀ row ∈ g, row.length = n

theorem mkGrid_shape (n : Nat) : gridShape (mkGrid n) n := by
  constructor
  · simp [mkGrid]
  · intro row hrow
    rw [List.eq_of_mem_replicate hrow]
    simp

theorem writeCell_shape (g : List (List Cell)) (n : Nat) (y x : Int) (c : Cell)
    (hs : gridShape g n) : gridShape (writeCell g y x c) n := by
  unfold writeCell
  split
  · constructor
    · rw [List.length_set]
      exact hs.1
    · intro row hrow
      rcases List.mem_or_eq_of_mem_set hrow with hmem | heq
      · exact hs.2 row hmem
      · by_cases hy : y.toNat < g.length
        · rw [heq, List.length_set,
            List.getD_eq_getElem g [] hy]
          exact hs.2 _ (List.getElem_mem hy)
        · rw [List.set_eq_of_length_le (by omega)] at hrow
          exact hs.2 row hrow
  · exact hs

theorem readCell_some_of_in_range (g : List (List Cell)) (n : Nat) (y x : Int)
    (hs : gridShape g n) (hy0 : 0 ≤ y) (hy : y.toNat < n) :
    readCell g y x =
      some (if h : 0 ≤ x then (g.getD y.toNat []).getD x.toNat Cell.undef else Cell.undef) := by
  have hylen : y.toNat < g.length := by
    rw [hs.1]
    exact hy
  have hrow : g.get? y.toNat = some (g.getD y.toNat []) := by
    rw [List.get?_eq_getElem?, List.getElem?_eq_getElem hylen,
      List.getD_eq_getElem g [] hylen]
  unfold readCell
  rw [if_pos hy0, hrow]
  dsimp only
  by_cases hx0 : 0 ≤ x
  · rw [if_pos hx0, dif_pos hx0]
  · rw [if_neg hx0, dif_neg hx0]

theorem readCell_bounds (g : List (List Cell)) (n : Nat) (y x : Int) (v : Cell)
    (hs : gridShape g n) (hv : readCell g y x = some v) (hne : v ≠ Cell.undef) :
    0 ≤ y ∧ y.toNat < n ∧ 0 ≤ x ∧ x.toNat < n := by
  unfold readCell at hv
  by_cases hy0 : 0 ≤ y
  · rw [if_pos hy0] at hv
    cases hrow : g.get? y.toNat with
    | none => rw [hrow] at hv; exact absurd hv (by simp)
    | some row =>
      rw [hrow] at hv
      dsimp only at hv
      have hylen : y.toNat < g.length := by
        by_contra hcon
        rw [List.get?_eq_getElem?, List.getElem?_eq_none (by omega)] at hrow
        exact absurd hrow (by simp)
      have hrowmem : row ∈ g := List.get?_mem hrow
      have hrlen : row.length = n := hs.2 row hrowmem
      by_cases hx0 : 0 ≤ x
      · rw [if_pos hx0] at hv
        have hveq : row.getD x.toNat Cell.undef = v := by
          injection hv
        by_cases hxlen : x.toNat < row.length
        · exact ⟨hy0, hs.1 ▸ hylen, hx0, hrlen ▸ hxlen⟩
        · rw [List.getD_eq_getElem?_getD, List.getElem?_eq_none (by omega)] at hveq
          exact absurd hveq.symm hne
      · rw [if_neg hx0] at hv
        have hveq : Cell.undef = v := by injection hv
        exact absurd hveq.symm hne
  · rw [if_neg hy0] at hv
    exact absurd hv (by simp)

theorem readCell_writeCell_self (g : List (List Cell)) (n : Nat) (y x : Int) (c : Cell)
    (hs : gridShape g n) (hy0 : 0 ≤ y) (hy : y.toNat < n) (hx0 : 0 ≤ x) (hx : x.toNat < n) :
    readCell (writeCell g y x c) y x = some c := by
  have hs2 := writeCell_shape g n y x c hs
  rw [readCell_some_of_in_range _ n _ _ hs2 hy0 hy, dif_pos hx0]
  unfold writeCell
  rw [if_pos ⟨hy0, hx0⟩]
  have hylen : y.toNat < g.length := by
    rw [hs.1]
    exact hy
  have hrowlen : (g.getD y.toNat []).length = n := by
    rw [List.getD_eq_getElem g [] hylen]
    exact hs.2 _ (List.getElem_mem hylen)
  rw [List.getD_eq_getElem _ [] (by rw [List.length_set]; omega),
    List.getElem_set_self, List.getD_eq_getElem _ _ (by rw [List.length_set]; omega),
    List.getElem_set_self]

theorem readCell_writeCell_ne (g : List (List Cell)) (y x y1 x1 : Int) (c : Cell)
    (hne : y ≠ y1 ∨ x ≠ x1) (hy0 : 0 ≤ y) (hx0 : 0 ≤ x) (hy10 : 0 ≤ y1) (hx10 : 0 ≤ x1) :
    readCell (writeCell g y1 x1 c) y x = readCell g y x := by
  unfold writeCell
  rw [if_pos ⟨hy10, hx10⟩]
  unfold readCell
  rw [if_pos hy0, if_pos hy0]
  by_cases hyy : y.toNat = y1.toNat
  · have hy_eq : y = y1 := by omega
    have hxx : x.toNat ≠ x1.toNat := by
      rcases hne with h | h
      · exact absurd hy_eq h
      · omega
    rw [← hyy]
    by_cases hylen : y.toNat < g.length
    · rw [List.get?_eq_getElem?, List.get?_eq_getElem?,
        List.getElem?_eq_getElem (by rw [List.length_set]; omega),
        List.getElem?_eq_getElem hylen, List.getElem_set_self (by rw [List.length_set]; omega)]
      have hgetD : g.getD y.toNat [] = g[y.toNat] := List.getD_eq_getElem g [] hylen
      rw [hgetD]
      simp only [if_pos hx0]
      rw [List.getD_eq_getElem?_getD, List.getD_eq_getElem?_getD,
        List.getElem?_set_ne (fun hcon => hxx hcon.symm)]
    · rw [List.get?_eq_getElem?, List.get?_eq_getElem?,
        List.getElem?_eq_none (by rw [List.length_set]; omega),
        List.getElem?_eq_none (by omega)]
  · rw [List.get?_eq_getElem?, List.get?_eq_getElem?,
      List.getElem?_set_ne (fun hcon => hyy hcon.symm)]

theorem path_ne (sx sy dx dy : Int) (hdir : dx ≠ 0 ∨ dy ≠ 0) (a b : Nat) (hab : a ≠ b) :
    sy + (a : Int) * dy ≠ sy + (b : Int) * dy ∨ sx + (a : Int) * dx ≠ sx + (b : Int) * dx := by
  rcases hdir with hdx | hdy
  · right
    intro hcon
    have h2 : (a : Int) * dx = (b : Int) * dx := by linarith
    have h3 : (a : Int) = (b : Int) := mul_right_cancel₀ hdx h2
    exact hab (by exact_mod_cast h3)
  · left
    intro hcon
    have h2 : (a : Int) * dy = (b : Int) * dy := by linarith
    have h3 : (a : Int) = (b : Int) := mul_right_cancel₀ hdy h2
    exact hab (by exact_mod_cast h3)

theorem checkFits_ok (g : List (List Cell)) (n : Nat) (sx sy dx dy : Int)
    (hs : gridShape g n) :
    ∀ (ts : List Char) (i : Nat),
      checkFits g sx sy dx dy ts i = some true →
      ∀ k, k < ts.length →
        (readCell g (sy + ((i + k : Nat) : Int) * dy) (sx + ((i + k : Nat) : Int) * dx) =
            some Cell.empty ∨
          readCell g (sy + ((i + k : Nat) : Int) * dy) (sx + ((i + k : Nat) : Int) * dx) =
            some (Cell.letter (ts.getD k 'A'))) := by
  intro ts
  induction ts with
  | nil =>
    intro i h k hk
    exact absurd hk (by simp)
  | cons c rest ih =>
    intro i h k hk
    unfold checkFits at h
    cases hread : readCell g (sy + (i : Int) * dy) (sx + (i : Int) * dx) with
    | none => rw [hread] at h; exact absurd h (by simp)
    | some cell =>
      rw [hread] at h
      cases k with
      | zero =>
        simp only [Nat.add_zero]
        cases cell with
        | empty => exact Or.inl hread
        | letter c0 =>
          dsimp only at h
          by_cases hc : c0 = c
          · rw [if_pos hc] at h
            refine Or.inr ?_
            rw [hread, hc]
            rfl
          · rw [if_neg hc] at h
            exact absurd h (by simp)
        | undef => exact absurd h (by simp)
      | succ m =>
        have hm : m < rest.length := by simpa using hk
        have hrec : checkFits g sx sy dx dy rest (i + 1) = some true := by
          cases cell with
          | empty => exact h
          | letter c0 =>
            dsimp only at h
            by_cases hc : c0 = c
            · rw [if_pos hc] at h
              exact h
            · rw [if_neg hc] at h
              exact absurd h (by simp)
          | undef => exact absurd h (by simp)
        have := ih (i + 1) hrec m hm
        have hidx : (i + 1) + m = i + (m + 1) := by omega
        rw [hidx] at this
        simpa using this

theorem writeWord_spec (n : Nat) (sx sy dx dy : Int) (hdir : dx ≠ 0 ∨ dy ≠ 0) :
    ∀ (ts : List Char) (i : Nat) (g : List (List Cell)),
      gridShape g n →
      (∀ k, k < ts.length →
        (readCell g (sy + ((i + k : Nat) : Int) * dy) (sx + ((i + k : Nat) : Int) * dx) =
            some Cell.empty ∨
          readCell g (sy + ((i + k : Nat) : Int) * dy) (sx + ((i + k : Nat) : Int) * dx) =
            some (Cell.letter (ts.getD k 'A')))) →
      gridShape (writeWord g sx sy dx dy ts i) n ∧
        (∀ k, k < ts.length →
          readCell (writeWord g sx sy dx dy ts i) (sy + ((i + k : Nat) : Int) * dy)
              (sx + ((i + k : Nat) : Int) * dx) = some (Cell.letter (ts.getD k 'A'))) ∧
        (∀ y x c, readCell g y x = some (Cell.letter c) →
          readCell (writeWord g sx sy dx dy ts i) y x = some (Cell.letter c)) := by
  intro ts
  induction ts with
  | nil =>
    intro i g hs hfits
    refine ⟨hs, ?_, ?_⟩
    · intro k hk
      exact absurd hk (by simp)
    · intro y x c h
      exact h
  | cons c0 rest ih =>
    intro i g hs hfits
    have hf0 := hfits 0 (by simp)
    simp only [Nat.add_zero, List.getD_cons_zero] at hf0
    have hbounds : 0 ≤ sy + (i : Int) * dy ∧ (sy + (i : Int) * dy).toNat < n ∧
        0 ≤ sx + (i : Int) * dx ∧ (sx + (i : Int) * dx).toNat < n := by
      rcases hf0 with h0 | h0
      · exact readCell_bounds g n _ _ _ hs h0 (by simp)
      · exact readCell_bounds g n _ _ _ hs h0 (by simp)
    obtain ⟨hpy0, hpy, hpx0, hpx⟩ := hbounds
    set g1 := writeCell g (sy + (i : Int) * dy) (sx + (i : Int) * dx) (Cell.letter c0) with hg1
    have hs1 : gridShape g1 n := writeCell_shape g n _ _ _ hs
    have hcell1 : readCell g1 (sy + (i : Int) * dy) (sx + (i : Int) * dx) =
        some (Cell.letter c0) :=
      readCell_writeCell_self g n _ _ _ hs hpy0 hpy hpx0 hpx
    have hpres1 : ∀ y x c, readCell g y x = some (Cell.letter c) →
        readCell g1 y x = some (Cell.letter c) := by
      intro y x c h
      obtain ⟨hy0, hyn, hx0, hxn⟩ := readCell_bounds g n y x _ hs h (by simp)
      by_cases heq : y = sy + (i : Int) * dy ∧ x = sx + (i : Int) * dx
      · rw [heq.1, heq.2] at h ⊢
        rcases hf0 with h0 | h0
        · rw [h] at h0
          exact absurd h0 (by simp)
        · rw [h] at h0
          injection h0 with h0
          rw [← h0] at hcell1
          exact hcell1
      · have hne : y ≠ sy + (i : Int) * dy ∨ x ≠ sx + (i : Int) * dx := by
          by_contra hcon
          push_neg at hcon
          exact heq ⟨hcon.1, hcon.2⟩
        rw [hg1, readCell_writeCell_ne g y x _ _ _ hne hy0 hx0 hpy0 hpx0]
        exact h
    have hfits1 : ∀ k, k < rest.length →
        (readCell g1 (sy + (((i + 1) + k : Nat) : Int) * dy)
            (sx + (((i + 1) + k : Nat) : Int) * dx) = some Cell.empty ∨
          readCell g1 (sy + (((i + 1) + k : Nat) : Int) * dy)
            (sx + (((i + 1) + k : Nat) : Int) * dx) =
            some (Cell.letter (rest.getD k 'A'))) := by
      intro k hk
      have hkk := hfits (k + 1) (by simpa using hk)
      have hidx : i + (k + 1) = (i + 1) + k := by omega
      rw [hidx] at hkk
      simp only [List.getD_cons_succ] at hkk
      have hne := path_ne sx sy dx dy hdir ((i + 1) + k) i (by omega)
      rw [hg1, readCell_writeCell_ne g _ _ _ _ _ hne]
      · exact hkk
      · rcases hkk with h0 | h0
        · exact (readCell_bounds g n _ _ _ hs h0 (by simp)).1
        · exact (readCell_bounds g n _ _ _ hs h0 (by simp)).1
      · rcases hkk with h0 | h0
        · exact (readCell_bounds g n _ _ _ hs h0 (by simp)).2.2.1
        · exact (readCell_bounds g n _ _ _ hs h0 (by simp)).2.2.1
      · exact hpy0
      · exact hpx0
    obtain ⟨ihs, ihpath, ihpres⟩ := ih (i + 1) g1 hs1 hfits1
    refine ⟨?_, ?_, ?_⟩
    · exact ihs
    · intro k hk
      cases k with
      | zero =>
        simp only [Nat.add_zero, List.getD_cons_zero]
        exact ihpres _ _ _ hcell1
      | succ m =>
        have hm : m < rest.length := by simpa using hk
        have hidx : i + (m + 1) = (i + 1) + m := by omega
        rw [hidx]
        simp only [List.getD_cons_succ]
        exact ihpath m hm
    · intro y x c h
      exact ihpres y x c (hpres1 y x c h)

theorem directions_ne_zero : ∀ p ∈ directions, p.1 ≠ 0 ∨ p.2 ≠ 0 := by decide

theorem jsIndex_mem (l : List α) (i : Int) (a : α) (h : jsIndex l i = some a) : a ∈ l := by
  unfold jsIndex at h
  split at h
  · exact List.get?_mem h
  · exact absurd h (by simp)

theorem tryPlace_inv (size : Nat) (term : List Char) :
    ∀ (fuel : Nat) (s : Int) (g : List (List Cell)) s1 g1 (opt : Option WSEntry),
      tryPlace size term fuel s g = some (s1, g1, opt) →
      gridShape g size →
      gridShape g1 size ∧
        (∀ y x c, readCell g y x = some (Cell.letter c) →
          readCell g1 y x = some (Cell.letter c)) ∧
        (∀ e, opt = some e → e.word = term ∧
          ∀ k, k < e.word.length →
            readCell g1 (e.y + (k : Int) * e.dy) (e.x + (k : Int) * e.dx) =
              some (Cell.letter (e.word.getD k 'A'))) := by
  intro fuel
  induction fuel with
  | zero =>
    intro s g s1 g1 opt h hs
    simp only [tryPlace, Option.some.injEq, Prod.mk.injEq] at h
    refine ⟨h.2.1 ▸ hs, ?_, ?_⟩
    · intro y x c hc
      rw [← h.2.1]
      exact hc
    · intro e he
      rw [← h.2.2] at he
      exact absurd he (by simp)
  | succ fuel ih =>
    intro s g s1 g1 opt h hs
    unfold tryPlace at h
    dsimp only at h
    split at h
    · exact absurd h (by simp)
    · rename_i d hd
      split at h
      · split at h
        · exact absurd h (by simp)
        · -- successful placement
          simp only [Option.some.injEq, Prod.mk.injEq] at h
          obtain ⟨hse, hge, hoe⟩ := h
          rename_i hfits
          have hdmem : d ∈ directions := jsIndex_mem _ _ _ hd
          have hdir : d.1 ≠ 0 ∨ d.2 ≠ 0 := directions_ne_zero d hdmem
          have hok := checkFits_ok g size
            (floorScale (nextState (nextState s)) size)
            (floorScale (nextState (nextState (nextState s))) size) d.1 d.2 hs term 0 hfits
          have hok0 : ∀ k, k < term.length →
              (readCell g
                  (floorScale (nextState (nextState (nextState s))) size + (k : Int) * d.2)
                  (floorScale (nextState (nextState s)) size + (k : Int) * d.1) =
                  some Cell.empty ∨
                readCell g
                  (floorScale (nextState (nextState (nextState s))) size + (k : Int) * d.2)
                  (floorScale (nextState (nextState s)) size + (k : Int) * d.1) =
                  some (Cell.letter (term.getD k 'A'))) := by
            intro k hk
            have := hok k hk
            simpa using this
          obtain ⟨hshape2, hpath2, hpres2⟩ := writeWord_spec size
            (floorScale (nextState (nextState s)) size)
            (floorScale (nextState (nextState (nextState s))) size) d.1 d.2 hdir term 0 g hs
            (by intro k hk; simpa using hok0 k hk)
          refine ⟨hge ▸ hshape2, ?_, ?_⟩
          · intro y x c hc
            rw [← hge]
            exact hpres2 y x c hc
          · intro e he
            rw [← hoe] at he
            injection he with he
            rw [← he]
            refine ⟨rfl, ?_⟩
            intro k hk
            have := hpath2 k hk
            rw [← hge]
            simpa using this
        · exact ih _ _ _ _ _ h hs
      · exact ih _ _ _ _ _ h hs

theorem fillRow_len (s : Int) (row : List Cell) :
    (fillRow s row).2.length = row.length := by
  induction row generalizing s with
  | nil => rfl
  | cons c r ih =>
    unfold fillRow
    simpa using ih (fillCell s c).1

theorem fillRow_letter (row : List Cell) :
    ∀ (s : Int) (j : Nat) (c : Char), row.get? j = some (Cell.letter c) →
      (fillRow s row).2.get? j = some (Cell.letter c) := by
  induction row with
  | nil =>
    intro s j c h
    exact absurd h (by simp)
  | cons c0 r ih =>
    intro s j c h
    cases j with
    | zero =>
      simp only [List.get?_eq_getElem?] at h ⊢
      simp only [List.getElem?_cons_zero, Option.some.injEq] at h
      subst h
      simp [fillRow, fillCell]
    | succ m =>
      simp only [List.get?_eq_getElem?] at h ⊢
      simp only [List.getElem?_cons_succ] at h
      unfold fillRow
      dsimp only
      simp only [List.getElem?_cons_succ]
      have := ih (fillCell s c0).1 m c (by simpa using h)
      simpa using this

theorem fillGrid_len (s : Int) (g : List (List Cell)) :
    (fillGrid s g).2.length = g.length := by
  induction g generalizing s with
  | nil => rfl
  | cons row rest ih =>
    unfold fillGrid
    simpa using ih (fillRow s row).1

theorem fillGrid_row (g : List (List Cell)) :
    ∀ (s : Int) (y : Nat) (row : List Cell), g.get? y = some row →
      ∃ s2, (fillGrid s g).2.get? y = some (fillRow s2 row).2 := by
  induction g with
  | nil =>
    intro s y row h
    exact absurd h (by simp)
  | cons r0 rest ih =>
    intro s y row h
    cases y with
    | zero =>
      simp only [List.get?_eq_getElem?, List.getElem?_cons_zero, Option.some.injEq] at h
      refine ⟨s, ?_⟩
      unfold fillGrid
      rw [← h]
      rfl
    | succ m =>
      simp only [List.get?_eq_getElem?, List.getElem?_cons_succ] at h
      rcases ih (fillRow s r0).1 m row (by simpa using h) with ⟨s2, hs2⟩
      refine ⟨s2, ?_⟩
      unfold fillGrid
      dsimp only
      simp only [List.get?_eq_getElem?, List.getElem?_cons_succ]
      simpa using hs2

theorem fillGrid_shape (s : Int) (g : List (List Cell)) (n : Nat) (hs : gridShape g n) :
    gridShape (fillGrid s g).2 n := by
  constructor
  · rw [fillGrid_len]
    exact hs.1
  · intro row hrow
    rcases List.getElem_of_mem hrow with ⟨y, hy, hyrow⟩
    have hsome : (fillGrid s g).2.get? y = some row := by
      rw [List.get?_eq_getElem?, List.getElem?_eq_getElem hy, hyrow]
    have hylen : y < g.length := by
      have := fillGrid_len s g
      omega
    have hget : g.get? y = some g[y] := by
      rw [List.get?_eq_getElem?, List.getElem?_eq_getElem hylen]
    rcases fillGrid_row g s y g[y] hget with ⟨s2, hs2⟩
    rw [hsome] at hs2
    injection hs2 with hs2
    rw [hs2, fillRow_len]
    exact hs.2 _ (List.getElem_mem hylen)

theorem fillGrid_letter (s : Int) (g : List (List Cell)) (n : Nat) (y x : Int) (c : Char)
    (hs : gridShape g n) (h : readCell g y x = some (Cell.letter c)) :
    readCell (fillGrid s g).2 y x = some (Cell.letter c) := by
  obtain ⟨hy0, hyn, hx0, hxn⟩ := readCell_bounds g n y x _ hs h (by simp)
  have hylen : y.toNat < g.length := by
    rw [hs.1]
    exact hyn
  have hget : g.get? y.toNat = some g[y.toNat] := by
    rw [List.get?_eq_getElem?, List.getElem?_eq_getElem hylen]
  have hrowlen : g[y.toNat].length = n := hs.2 _ (List.getElem_mem hylen)
  -- extract the row-level letter fact from the readCell hypothesis
  rw [readCell_some_of_in_range g n y x hs hy0 hyn, dif_pos hx0] at h
  injection h with h
  have hgetD : g.getD y.toNat [] = g[y.toNat] := List.getD_eq_getElem g [] hylen
  rw [hgetD] at h
  have hxrow : x.toNat < g[y.toNat].length := by omega
  rw [List.getD_eq_getElem _ _ hxrow] at h
  have hrowget : g[y.toNat].get? x.toNat = some (Cell.letter c) := by
    rw [List.get?_eq_getElem?, List.getElem?_eq_getElem hxrow, h]
  rcases fillGrid_row g s y.toNat g[y.toNat] hget with ⟨s2, hs2⟩
  have hnewlet := fillRow_letter g[y.toNat] s2 x.toNat c hrowget
  have hshape2 := fillGrid_shape s g n hs
  rw [readCell_some_of_in_range _ n y x hshape2 hy0 (by rw [← hs.1]; exact hylen),
    dif_pos hx0]
  have hnewrow : (fillGrid s g).2.getD y.toNat [] = (fillRow s2 g[y.toNat]).2 := by
    have hyl2 : y.toNat < (fillGrid s g).2.length := by
      rw [fillGrid_len]
      exact hylen
    rw [List.getD_eq_getElem _ [] hyl2]
    rw [List.get?_eq_getElem?, List.getElem?_eq_getElem hyl2] at hs2
    injection hs2
  rw [hnewrow]
  have hxl2 : x.toNat < (fillRow s2 g[y.toNat]).2.length := by
    rw [fillRow_len]
    omega
  rw [List.getD_eq_getElem _ _ hxl2]
  rw [List.get?_eq_getElem?, List.getElem?_eq_getElem hxl2] at hnewlet
  injection hnewlet with hval
  rw [hval]

theorem placeWords_inv (size : Nat) :
    ∀ (ws : List WordPair) (s : Int) (g : List (List Cell)) (acc : List WSEntry)
      s1 g1 (out : List WSEntry),
      placeWords size ws s g acc = some (s1, g1, out) →
      gridShape g size →
      (∀ e ∈ acc, ∀ k, k < e.word.length →
        readCell g (e.y + (k : Int) * e.dy) (e.x + (k : Int) * e.dx) =
          some (Cell.letter (e.word.getD k 'A'))) →
      gridShape g1 size ∧
        ∀ e ∈ out, ∀ k, k < e.word.length →
          readCell g1 (e.y + (k : Int) * e.dy) (e.x + (k : Int) * e.dx) =
            some (Cell.letter (e.word.getD k 'A')) := by
  intro ws
  induction ws with
  | nil =>
    intro s g acc s1 g1 out h hs hacc
    simp only [placeWords, Option.some.injEq, Prod.mk.injEq] at h
    refine ⟨h.2.1 ▸ hs, ?_⟩
    intro e he
    rw [← h.2.2] at he
    intro k hk
    rw [← h.2.1]
    exact hacc e he k hk
  | cons w rest ih =>
    intro s g acc s1 g1 out h hs hacc
    unfold placeWords at h
    split at h
    · exact absurd h (by simp)
    · rename_i s2 g2 heq
      obtain ⟨hs2, hpres, _⟩ := tryPlace_inv size (cleanWord w.word) 100 s g _ _ _ heq hs
      refine ih _ _ _ _ _ _ h hs2 ?_
      intro e he k hk
      exact hpres _ _ _ (hacc e he k hk)
    · rename_i s2 g2 e0 heq
      obtain ⟨hs2, hpres, hnew⟩ := tryPlace_inv size (cleanWord w.word) 100 s g _ _ _ heq hs
      refine ih _ _ _ _ _ _ h hs2 ?_
      intro e he k hk
      rcases List.mem_append.mp he with hmem | hmem
      · exact hpres _ _ _ (hacc e hmem k hk)
      · have he0 : e = e0 := by simpa using hmem
        subst he0
        exact (hnew e rfl).2 k hk

/-- Claim C6: every entry of the placed-words list of a word-search call
has its whole path inside `[0, size)` in both coordinates, and the
returned grid holds the entry's k-th letter at the k-th path cell. -/
theorem wordsearch_placed_words_legal (w : List WordPair) (n : Nat) (s : Int)
    (e : WSEntry) (he : e ∈ wsPlaced (generateWordSearch w n s))
    (k : Nat) (hk : k < e.word.length) :
    0 ≤ e.x + (k : Int) * e.dx ∧ e.x + (k : Int) * e.dx < (n : Int) ∧
      0 ≤ e.y + (k : Int) * e.dy ∧ e.y + (k : Int) * e.dy < (n : Int) ∧
      readCell (wsGrid (generateWordSearch w n s)) (e.y + (k : Int) * e.dy)
        (e.x + (k : Int) * e.dx) = some (Cell.letter (e.word.getD k 'A')) := by
  unfold generateWordSearch at he ⊢
  cases hp : placeWords n (jsSort rawLenDesc w) s (mkGrid n) [] with
  | none =>
    rw [hp] at he
    exact absurd he (by simp [wsPlaced])
  | some r =>
    obtain ⟨sa, ga, placed⟩ := r
    rw [hp] at he
    obtain ⟨hshape, hlegal⟩ := placeWords_inv n _ _ _ _ _ _ _ hp (mkGrid_shape n)
      (by intro e he; exact absurd he (by simp))
    have hmem : e ∈ placed := by simpa [wsPlaced] using he
    have hcell := hlegal e hmem k hk
    have hfinal : readCell (fillGrid sa ga).2 (e.y + (k : Int) * e.dy)
        (e.x + (k : Int) * e.dx) = some (Cell.letter (e.word.getD k 'A')) :=
      fillGrid_letter sa ga n _ _ _ hshape hcell
    obtain ⟨hy0, hyn, hx0, hxn⟩ := readCell_bounds ga n _ _ _ hshape hcell (by simp)
    refine ⟨hx0, by omega, hy0, by omega, ?_⟩
    simpa [wsGrid] using hfinal

/-- Witness for C6: in the seed-1 word search for CAT on a 5×5 grid the
word is placed diagonally from (2, 1); its first letter is in bounds and
the grid holds it. -/
theorem wordsearch_placed_words_legal_witness :
    0 ≤ (2 : Int) + (0 : Nat) * (1 : Int) ∧ (2 : Int) + (0 : Nat) * (1 : Int) < (5 : Nat) ∧
      0 ≤ (1 : Int) + (0 : Nat) * (1 : Int) ∧ (1 : Int) + (0 : Nat) * (1 : Int) < (5 : Nat) ∧
      readCell (wsGrid (generateWordSearch [⟨"CAT", "d"⟩] 5 1))
        ((1 : Int) + (0 : Nat) * (1 : Int)) ((2 : Int) + (0 : Nat) * (1 : Int)) =
        some (Cell.letter ((['C', 'A', 'T'] : List Char).getD 0 'A')) :=
  wordsearch_placed_words_legal [⟨"CAT", "d"⟩] 5 1 ⟨['C', 'A', 'T'], 2, 1, 1, 1⟩
    (by decide) 0 (by decide)

/-- A grid cell as it exists during the placement phase: the empty
string, or a single kept (uppercase) letter. -/
def cellOK (c : Cell) : Prop :=
  c = Cell.empty ∨ ∃ ch, c = Cell.letter ch ∧ isKeptChar ch = true

/-- All cells of the grid are placement-phase cells. -/
def cellsOK (g : List (List Cell)) : Prop :=
  ∀ row ∈ g, ∀ c ∈ row, cellOK c

theorem mkGrid_cellsOK (n : Nat) : cellsOK (mkGrid n) := by
  intro row hrow c hc
  rw [List.eq_of_mem_replicate hrow] at hc
  rw [List.eq_of_mem_replicate hc]
  exact Or.inl rfl

theorem writeCell_cellsOK (g : List (List Cell)) (y x : Int) (ch : Char)
    (hch : isKeptChar ch = true) (hok : cellsOK g) :
    cellsOK (writeCell g y x (Cell.letter ch)) := by
  unfold writeCell
  split
  · intro row hrow c hc
    rcases List.mem_or_eq_of_mem_set hrow with hmem | heq
    · exact hok row hmem c hc
    · subst heq
      rcases List.mem_or_eq_of_mem_set hc with hmem2 | heq2
      · by_cases hy : y.toNat < g.length
        · rw [List.getD_eq_getElem g [] hy] at hmem2
          exact hok _ (List.getElem_mem hy) c hmem2
        · rw [List.getD_eq_getElem?_getD, List.getElem?_eq_none (by omega)] at hmem2
          exact absurd hmem2 (by simp)
      · subst heq2
        exact Or.inr ⟨ch, rfl, hch⟩
  · exact hok

theorem writeWord_cellsOK (sx sy dx dy : Int) :
    ∀ (ts : List Char) (i : Nat) (g : List (List Cell)),
      (∀ c ∈ ts, isKeptChar c = true) → cellsOK g →
      cellsOK (writeWord g sx sy dx dy ts i) := by
  intro ts
  induction ts with
  | nil =>
    intro i g _ hok
    exact hok
  | cons c rest ih =>
    intro i g hkept hok
    exact ih (i + 1) _ (fun c2 hc2 => hkept c2 (List.mem_cons_of_mem c hc2))
      (writeCell_cellsOK g _ _ c (hkept c (by simp)) hok)

theorem tryPlace_cellsOK (size : Nat) (term : List Char)
    (hterm : ∀ c ∈ term, isKeptChar c = true) :
    ∀ (fuel : Nat) (s : Int) (g : List (List Cell)) s1 g1 opt,
      tryPlace size term fuel s g = some (s1, g1, opt) →
      cellsOK g → cellsOK g1 := by
  intro fuel
  induction fuel with
  | zero =>
    intro s g s1 g1 opt h hok
    simp only [tryPlace, Option.some.injEq, Prod.mk.injEq] at h
    exact h.2.1 ▸ hok
  | succ fuel ih =>
    intro s g s1 g1 opt h hok
    unfold tryPlace at h
    dsimp only at h
    split at h
    · exact absurd h (by simp)
    · split at h
      · split at h
        · exact absurd h (by simp)
        · simp only [Option.some.injEq, Prod.mk.injEq] at h
          rw [← h.2.1]
          exact writeWord_cellsOK _ _ _ _ term 0 g hterm hok
        · exact ih _ _ _ _ _ h hok
      · exact ih _ _ _ _ _ h hok

theorem placeWords_cellsOK (size : Nat) :
    ∀ (ws : List WordPair) (s : Int) (g : List (List Cell)) (acc : List WSEntry)
      s1 g1 out,
      placeWords size ws s g acc = some (s1, g1, out) →
      cellsOK g → cellsOK g1 := by
  intro ws
  induction ws with
  | nil =>
    intro s g acc s1 g1 out h hok
    simp only [placeWords, Option.some.injEq, Prod.mk.injEq] at h
    exact h.2.1 ▸ hok
  | cons w rest ih =>
    intro s g acc s1 g1 out h hok
    unfold placeWords at h
    split at h
    · exact absurd h (by simp)
    · rename_i s2 g2 heq
      exact ih _ _ _ _ _ _ h
        (tryPlace_cellsOK size _ (cleanWord_all_kept w.word) _ _ _ _ _ _ heq hok)
    · rename_i s2 g2 e0 heq
      exact ih _ _ _ _ _ _ h
        (tryPlace_cellsOK size _ (cleanWord_all_kept w.word) _ _ _ _ _ _ heq hok)

theorem directions_dy : ∀ p ∈ directions, p.2 = -1 ∨ p.2 = 0 ∨ p.2 = 1 := by decide

theorem checkFits_ne_none (g : List (List Cell)) (n : Nat) (sx sy dx dy : Int)
    (hs : gridShape g n) (hdy : dy = -1 ∨ dy = 0 ∨ dy = 1) (L : Nat)
    (hsy0 : 0 ≤ sy) (hsyn : sy < (n : Int))
    (hey0 : 0 ≤ sy + ((L : Int) - 1) * dy) (heyn : sy + ((L : Int) - 1) * dy < (n : Int)) :
    ∀ (ts : List Char) (i : Nat), i + ts.length = L →
      checkFits g sx sy dx dy ts i ≠ none := by
  intro ts
  induction ts with
  | nil =>
    intro i hi
    simp [checkFits]
  | cons c rest ih =>
    intro i hi
    have hiL : i + 1 ≤ L := by
      simp only [List.length_cons] at hi
      omega
    have hrow0 : 0 ≤ sy + (i : Int) * dy := by
      rcases hdy with h | h | h <;> (subst h; omega)
    have hrown : sy + (i : Int) * dy < (n : Int) := by
      rcases hdy with h | h | h <;> (subst h; omega)
    have hrownat : (sy + (i : Int) * dy).toNat < n := by omega
    unfold checkFits
    rw [readCell_some_of_in_range g n _ _ hs hrow0 hrownat]
    cases hcell : (if h : 0 ≤ sx + (i : Int) * dx then
        (g.getD (sy + (i : Int) * dy).toNat []).getD (sx + (i : Int) * dx).toNat Cell.undef
      else Cell.undef) with
    | empty =>
      show checkFits g sx sy dx dy rest (i + 1) ≠ none
      apply ih (i + 1)
      simp only [List.length_cons] at hi
      omega
    | letter c0 =>
      show (if c0 = c then checkFits g sx sy dx dy rest (i + 1) else some false) ≠ none
      by_cases hc : c0 = c
      · rw [if_pos hc]
        apply ih (i + 1)
        simp only [List.length_cons] at hi
        omega
      · rw [if_neg hc]
        simp
    | undef =>
      show (some false : Option Bool) ≠ none
      simp

theorem tryPlace_total (size : Nat) (term : List Char) :
    ∀ (fuel : Nat) (s : Int) (g : List (List Cell)), 0 ≤ s → gridShape g size →
      ∃ s1 g1 opt, tryPlace size term fuel s g = some (s1, g1, opt) ∧ 0 ≤ s1 := by
  intro fuel
  induction fuel with
  | zero =>
    intro s g hs0 hshape
    exact ⟨s, g, none, rfl, hs0⟩
  | succ fuel ih =>
    intro s g hs0 hshape
    have h1 : 0 ≤ nextState s := nextState_nonneg s hs0
    have h1lt : nextState s < 233280 := nextState_lt s
    have h2 : 0 ≤ nextState (nextState s) := nextState_nonneg _ h1
    have h2lt : nextState (nextState s) < 233280 := nextState_lt _
    have h3 : 0 ≤ nextState (nextState (nextState s)) := nextState_nonneg _ h2
    have h3lt : nextState (nextState (nextState s)) < 233280 := nextState_lt _
    have hdi0 : 0 ≤ floorScale (nextState s) 8 := floorScale_nonneg _ _ h1
    have hdilt : floorScale (nextState s) 8 < 8 := by
      have := floorScale_lt (nextState s) 8 h1lt (by omega)
      exact_mod_cast this
    have hdnat : (floorScale (nextState s) 8).toNat < directions.length := by
      simp only [directions, List.length_cons, List.length_nil]
      omega
    have hjs : jsIndex directions (floorScale (nextState s) 8) =
        some directions[(floorScale (nextState s) 8).toNat] := by
      unfold jsIndex
      rw [if_pos hdi0, List.get?_eq_getElem?, List.getElem?_eq_getElem hdnat]
    set d := directions[(floorScale (nextState s) 8).toNat] with hd
    have hdmem : d ∈ directions := List.getElem_mem hdnat
    unfold tryPlace
    dsimp only
    rw [hjs]
    dsimp only
    by_cases hb : 0 ≤ floorScale (nextState (nextState s)) size +
          ((term.length : Int) - 1) * d.1 ∧
        floorScale (nextState (nextState s)) size + ((term.length : Int) - 1) * d.1 <
          (size : Int) ∧
        0 ≤ floorScale (nextState (nextState (nextState s))) size +
          ((term.length : Int) - 1) * d.2 ∧
        floorScale (nextState (nextState (nextState s))) size +
          ((term.length : Int) - 1) * d.2 < (size : Int)
    · rw [if_pos hb]
      have hsizepos : 0 < size := by
        have hx := hb.2.1
        have hx0 := hb.1
        by_contra hcon
        have hz : size = 0 := by omega
        rw [hz] at hx hx0
        simp only [Nat.cast_zero] at hx
        omega
      have hsy0 : 0 ≤ floorScale (nextState (nextState (nextState s))) size :=
        floorScale_nonneg _ _ h3
      have hsyn : floorScale (nextState (nextState (nextState s))) size < (size : Int) :=
        floorScale_lt _ _ h3lt hsizepos
      cases hcf : checkFits g (floorScale (nextState (nextState s)) size)
          (floorScale (nextState (nextState (nextState s))) size) d.1 d.2 term 0 with
      | none =>
        exact absurd hcf
          (checkFits_ne_none g size _ _ d.1 d.2 hshape (directions_dy d hdmem)
            term.length hsy0 hsyn hb.2.2.1 hb.2.2.2 term 0 (by omega))
      | some b =>
        cases b with
        | true =>
          exact ⟨_, _, _, rfl, h3⟩
        | false =>
          rcases ih (nextState (nextState (nextState s))) g h3 hshape with
            ⟨s1, g1, opt, heq, hs1⟩
          exact ⟨s1, g1, opt, heq, hs1⟩
    · rw [if_neg hb]
      rcases ih (nextState (nextState (nextState s))) g h3 hshape with
        ⟨s1, g1, opt, heq, hs1⟩
      exact ⟨s1, g1, opt, heq, hs1⟩

theorem placeWords_total (size : Nat) :
    ∀ (ws : List WordPair) (s : Int) (g : List (List Cell)) (acc : List WSEntry),
      0 ≤ s → gridShape g size →
      ∃ s1 g1 out, placeWords size ws s g acc = some (s1, g1, out) ∧ 0 ≤ s1 := by
  intro ws
  induction ws with
  | nil =>
    intro s g acc hs0 hshape
    exact ⟨s, g, acc, rfl, hs0⟩
  | cons w rest ih =>
    intro s g acc hs0 hshape
    rcases tryPlace_total size (cleanWord w.word) 100 s g hs0 hshape with
      ⟨s2, g2, opt, heq, hs2⟩
    have hshape2 : gridShape g2 size :=
      (tryPlace_inv size (cleanWord w.word) 100 s g _ _ _ heq hshape).1
    unfold placeWords
    rw [heq]
    cases opt with
    | none =>
      exact ih s2 g2 acc hs2 hshape2
    | some e =>
      exact ih s2 g2 (acc ++ [e]) hs2 hshape2

theorem alphabet_kept : ∀ a ∈ alphabet, isKeptChar a = true := by decide

theorem fillCell_complete (s : Int) (c : Cell) (hs : 0 ≤ s) (hc : cellOK c) :
    0 ≤ (fillCell s c).1 ∧
      ∃ ch, (fillCell s c).2 = Cell.letter ch ∧ isKeptChar ch = true := by
  rcases hc with hempty | ⟨ch, hch, hkept⟩
  · subst hempty
    have h1 : 0 ≤ nextState s := nextState_nonneg s hs
    have h1lt : nextState s < 233280 := nextState_lt s
    have hj0 : 0 ≤ floorScale (nextState s) 26 := floorScale_nonneg _ _ h1
    have hjlt : floorScale (nextState s) 26 < 26 := by
      have := floorScale_lt (nextState s) 26 h1lt (by omega)
      exact_mod_cast this
    have hjnat : (floorScale (nextState s) 26).toNat < alphabet.length := by
      have : alphabet.length = 26 := by decide
      omega
    have hjs : jsIndex alphabet (floorScale (nextState s) 26) =
        some alphabet[(floorScale (nextState s) 26).toNat] := by
      unfold jsIndex
      rw [if_pos hj0, List.get?_eq_getElem?, List.getElem?_eq_getElem hjnat]
    refine ⟨h1, alphabet[(floorScale (nextState s) 26).toNat], ?_, ?_⟩
    · show (match jsIndex alphabet (floorScale (nextState s) 26) with
        | some a => Cell.letter a
        | none => Cell.undef) = _
      rw [hjs]
    · exact alphabet_kept _ (List.getElem_mem hjnat)
  · subst hch
    exact ⟨hs, ch, rfl, hkept⟩

theorem fillRow_complete (row : List Cell) :
    ∀ (s : Int), 0 ≤ s → (∀ c ∈ row, cellOK c) →
      0 ≤ (fillRow s row).1 ∧
        ∀ c2 ∈ (fillRow s row).2, ∃ ch, c2 = Cell.letter ch ∧ isKeptChar ch = true := by
  induction row with
  | nil =>
    intro s hs _
    exact ⟨hs, by simp [fillRow]⟩
  | cons c r ih =>
    intro s hs hok
    obtain ⟨hs1, ch, hch, hkept⟩ := fillCell_complete s c hs (hok c (by simp))
    obtain ⟨hs2, hall⟩ := ih (fillCell s c).1 hs1
      (fun c2 hc2 => hok c2 (List.mem_cons_of_mem c hc2))
    refine ⟨?_, ?_⟩
    · show 0 ≤ (fillRow (fillCell s c).1 r).1
      exact hs2
    · intro c2 hc2
      have hc2' : c2 ∈ (fillCell s c).2 :: (fillRow (fillCell s c).1 r).2 := hc2
      rcases List.mem_cons.mp hc2' with heq | hmem
      · exact ⟨ch, heq ▸ hch, hkept⟩
      · exact hall c2 hmem

theorem fillGrid_complete (g : List (List Cell)) :
    ∀ (s : Int), 0 ≤ s → cellsOK g →
      ∀ row ∈ (fillGrid s g).2, ∀ c ∈ row, ∃ ch, c = Cell.letter ch ∧ isKeptChar ch = true := by
  induction g with
  | nil =>
    intro s _ _ row hrow
    simp [fillGrid] at hrow
  | cons r0 rest ih =>
    intro s hs hok row hrow
    obtain ⟨hs1, hall⟩ := fillRow_complete r0 s hs (hok r0 (by simp))
    have hrow' : row ∈ (fillRow s r0).2 :: (fillGrid (fillRow s r0).1 rest).2 := hrow
    rcases List.mem_cons.mp hrow' with heq | hmem
    · intro c hc
      exact hall c (heq ▸ hc)
    · exact ih (fillRow s r0).1 hs1 (fun r hr => hok r (List.mem_cons_of_mem r0 hr)) row hmem

/-- Counterexample to claim C7 as stated: with the empty word list, grid
size 2 and seed `-10`, every RNG draw of the fill pass is negative, the
index into the alphabet string is negative, and every grid cell receives
the value `undefined` — not an uppercase letter. -/
theorem wordsearch_fill_undefined_negative_seed :
    wsGrid (generateWordSearch [] 2 (-10)) =
        [[Cell.undef, Cell.undef], [Cell.undef, Cell.undef]] ∧
      ∀ ch : Char, Cell.undef ≠ Cell.letter ch := by
  constructor
  · rfl
  · intro ch h
    exact Cell.noConfusion h

/-- Claim C7, amended to nonnegative seeds: the call returns (never
throws), the grid is `size × size`, and every cell is a single uppercase
letter of the retained class (no cell left empty, none `undefined`). -/
theorem wordsearch_fill_complete_nonneg_seed (w : List WordPair) (n : Nat) (s : Int)
    (hs : 0 ≤ s) :
    ∃ r, generateWordSearch w n s = some r ∧
      r.grid.length = n ∧ (∀ row ∈ r.grid, row.length = n) ∧
      ∀ row ∈ r.grid, ∀ c ∈ row, ∃ ch, c = Cell.letter ch ∧ isKeptChar ch = true := by
  rcases placeWords_total n (jsSort rawLenDesc w) s (mkGrid n) [] hs (mkGrid_shape n) with
    ⟨s1, g1, out, heq, hs1⟩
  have hshape1 : gridShape g1 n :=
    (placeWords_inv n _ _ _ _ _ _ _ heq (mkGrid_shape n)
      (by intro e he; exact absurd he (by simp))).1
  have hok1 : cellsOK g1 := placeWords_cellsOK n _ _ _ _ _ _ _ heq (mkGrid_cellsOK n)
  refine ⟨⟨(fillGrid s1 g1).2, out⟩, ?_, ?_, ?_, ?_⟩
  · unfold generateWordSearch
    rw [heq]
  · rw [fillGrid_len]
    exact hshape1.1
  · exact (fillGrid_shape s1 g1 n hshape1).2
  · exact fillGrid_complete g1 s1 hs1 hok1

/-- Witness for C7 at a concrete input. -/
theorem wordsearch_fill_complete_nonneg_seed_witness :
    ∃ r, generateWordSearch [⟨"CAT", "d"⟩] 5 1 = some r ∧
      r.grid.length = 5 ∧ (∀ row ∈ r.grid, row.length = 5) ∧
      ∀ row ∈ r.grid, ∀ c ∈ row, ∃ ch, c = Cell.letter ch ∧ isKeptChar ch = true :=
  wordsearch_fill_complete_nonneg_seed [⟨"CAT", "d"⟩] 5 1 (by norm_num)

/-! ### Crossword invariants (claims C8, C10) -/

/-- Well-formedness of the 40×40 virtual crossword grid. -/
def cwShape (g : List (List (Option Char))) : Prop :=
  g.length = 40 ∧ ∀ row ∈ g, row.length = 40

theorem mkCWGrid_shape : cwShape mkCWGrid := by
  constructor
  · simp [mkCWGrid]
  · intro row hrow
    rw [List.eq_of_mem_replicate hrow]
    simp

theorem mkCWGrid_none (y x : Int) : charAt mkCWGrid y x = none := by
  unfold charAt mkCWGrid
  split
  · by_cases hy : y.toNat < 40
    · rw [List.getD_eq_getElem _ []
        (by rw [List.length_replicate]; exact hy), List.getElem_replicate]
      by_cases hx : x.toNat < 40
      · rw [List.getD_eq_getElem _ _
          (by rw [List.length_replicate]; exact hx), List.getElem_replicate]
      · rw [List.getD_eq_getElem?_getD,
          List.getElem?_eq_none (by rw [List.length_replicate]; omega)]
        rfl
    · have hrow : (List.replicate 40 (List.replicate 40 (none : Option Char))).getD
          y.toNat [] = [] := by
        rw [List.getD_eq_getElem?_getD,
          List.getElem?_eq_none (by rw [List.length_replicate]; omega)]
        rfl
      rw [hrow]
      rfl
  · rfl

theorem charAt_bounds (g : List (List (Option Char))) (y x : Int) (c : Char)
    (hs : cwShape g) (h : charAt g y x = some c) :
    0 ≤ y ∧ y.toNat < 40 ∧ 0 ≤ x ∧ x.toNat < 40 := by
  unfold charAt at h
  split at h
  · rename_i hyx
    have hg40 : g.length = 40 := hs.1
    by_cases hy : y.toNat < g.length
    · have hrow : g.getD y.toNat [] = g[y.toNat] := List.getD_eq_getElem g [] hy
      rw [hrow] at h
      have hrlen : g[y.toNat].length = 40 := hs.2 _ (List.getElem_mem hy)
      by_cases hx : x.toNat < g[y.toNat].length
      · exact ⟨hyx.1, by omega, hyx.2, by omega⟩
      · rw [List.getD_eq_getElem?_getD, List.getElem?_eq_none (by omega)] at h
        exact absurd h (by simp)
    · have hrow : g.getD y.toNat [] = [] := by
        rw [List.getD_eq_getElem?_getD, List.getElem?_eq_none (by omega)]
        rfl
      rw [hrow] at h
      simp at h
  · exact absurd h (by simp)

theorem writeChar_shape (g : List (List (Option Char))) (y x : Int) (c : Char)
    (hs : cwShape g) : cwShape (writeChar g y x c) := by
  unfold writeChar
  split
  · constructor
    · rw [List.length_set]
      exact hs.1
    · intro row hrow
      rcases List.mem_or_eq_of_mem_set hrow with hmem | heq
      · exact hs.2 row hmem
      · by_cases hy : y.toNat < g.length
        · rw [heq, List.length_set, List.getD_eq_getElem g [] hy]
          exact hs.2 _ (List.getElem_mem hy)
        · rw [List.set_eq_of_length_le (by omega)] at hrow
          exact hs.2 row hrow
  · exact hs

theorem charAt_writeChar_self (g : List (List (Option Char))) (y x : Int) (c : Char)
    (hs : cwShape g) (hy0 : 0 ≤ y) (hy : y.toNat < 40) (hx0 : 0 ≤ x) (hx : x.toNat < 40) :
    charAt (writeChar g y x c) y x = some c := by
  unfold writeChar
  rw [if_pos ⟨hy0, hx0⟩]
  unfold charAt
  rw [if_pos ⟨hy0, hx0⟩]
  have hylen : y.toNat < g.length := by
    rw [hs.1]
    exact hy
  have hrowlen : (g.getD y.toNat []).length = 40 := by
    rw [List.getD_eq_getElem g [] hylen]
    exact hs.2 _ (List.getElem_mem hylen)
  rw [List.getD_eq_getElem _ [] (by rw [List.length_set]; omega), List.getElem_set_self,
    List.getD_eq_getElem _ _ (by rw [List.length_set]; omega), List.getElem_set_self]

theorem charAt_writeChar_ne (g : List (List (Option Char))) (y x y1 x1 : Int) (c : Char)
    (hne : y ≠ y1 ∨ x ≠ x1) (hy10 : 0 ≤ y1) (hx10 : 0 ≤ x1) :
    charAt (writeChar g y1 x1 c) y x = charAt g y x := by
  unfold writeChar
  rw [if_pos ⟨hy10, hx10⟩]
  unfold charAt
  by_cases hyx : 0 ≤ y ∧ 0 ≤ x
  · rw [if_pos hyx, if_pos hyx]
    by_cases hyy : y.toNat = y1.toNat
    · have hy_eq : y = y1 := by omega
      have hxx : x.toNat ≠ x1.toNat := by
        rcases hne with h | h
        · exact absurd hy_eq h
        · omega
      rw [← hyy]
      by_cases hylen : y.toNat < g.length
      · rw [List.getD_eq_getElem _ [] (by rw [List.length_set]; omega),
          List.getD_eq_getElem g [] hylen, List.getElem_set_self,
          List.getD_eq_getElem?_getD, List.getD_eq_getElem?_getD,
          List.getElem?_set_ne (fun hcon => hxx hcon.symm)]
      · have h1 : (g.set y.toNat ((g.getD y.toNat []).set x1.toNat (some c))).getD
            y.toNat [] = [] := by
          rw [List.getD_eq_getElem?_getD,
            List.getElem?_eq_none (by rw [List.length_set]; omega)]
          rfl
        have h2 : g.getD y.toNat [] = [] := by
          rw [List.getD_eq_getElem?_getD, List.getElem?_eq_none (by omega)]
          rfl
        rw [h1, h2]
    · have h1 : (g.set y1.toNat ((g.getD y1.toNat []).set x1.toNat (some c))).getD
          y.toNat [] = g.getD y.toNat [] := by
        rw [List.getD_eq_getElem?_getD, List.getD_eq_getElem?_getD,
          List.getElem?_set_ne (fun hcon => hyy hcon.symm)]
        rw [List.getD_eq_getElem?_getD]
      rw [h1]
  · rw [if_neg hyx, if_neg hyx]

/-- Legality of a (pre-numbering) placement on the virtual grid: the
whole path is inside the canvas and carries the word's letters. -/
def cwLegal (g : List (List (Option Char))) (e : CWPre) : Prop :=
  ∀ k, k < e.word.length →
    0 ≤ cwPosX e.x e.dir k ∧ cwPosX e.x e.dir k < 40 ∧
      0 ≤ cwPosY e.y e.dir k ∧ cwPosY e.y e.dir k < 40 ∧
      charAt g (cwPosY e.y e.dir k) (cwPosX e.x e.dir k) = some (e.word.getD k ' ')

theorem cwPos_inj (sx sy : Int) (d : Dir) (a b : Nat) (hab : a ≠ b) :
    cwPosY sy d a ≠ cwPosY sy d b ∨ cwPosX sx d a ≠ cwPosX sx d b := by
  cases d with
  | across =>
    right
    simp only [cwPosX]
    omega
  | down =>
    left
    simp only [cwPosY]
    omega

theorem cwFits_ok (g : List (List (Option Char))) (sx sy : Int) (d : Dir) (len : Nat) :
    ∀ (ts : List Char) (k0 : Nat),
      cwFits g sx sy d len ts k0 = true →
      ∀ k, k < ts.length →
        (0 ≤ cwPosX sx d (k0 + k) ∧ cwPosX sx d (k0 + k) < 40 ∧
          0 ≤ cwPosY sy d (k0 + k) ∧ cwPosY sy d (k0 + k) < 40) ∧
        (charAt g (cwPosY sy d (k0 + k)) (cwPosX sx d (k0 + k)) = none ∨
          charAt g (cwPosY sy d (k0 + k)) (cwPosX sx d (k0 + k)) =
            some (ts.getD k ' ')) := by
  intro ts
  induction ts with
  | nil =>
    intro k0 h k hk
    exact absurd hk (by simp)
  | cons c rest ih =>
    intro k0 h k hk
    unfold cwFits at h
    dsimp only at h
    split at h
    · exact absurd h (by simp)
    · rename_i hbx
      have hb : 0 ≤ cwPosX sx d k0 ∧ cwPosX sx d k0 < 40 ∧
          0 ≤ cwPosY sy d k0 ∧ cwPosY sy d k0 < 40 := not_not.mp hbx
      split at h
      · exact absurd h (by simp)
      · rename_i hcx
        have hcell : charAt g (cwPosY sy d k0) (cwPosX sx d k0) = none ∨
            charAt g (cwPosY sy d k0) (cwPosX sx d k0) = some c := by
          by_cases h1 : charAt g (cwPosY sy d k0) (cwPosX sx d k0) = none
          · exact Or.inl h1
          · by_cases h2 : charAt g (cwPosY sy d k0) (cwPosX sx d k0) = some c
            · exact Or.inr h2
            · exact absurd ⟨h1, h2⟩ hcx
        split at h
        · exact absurd h (by simp)
        · split at h
          · exact absurd h (by simp)
          · split at h
            · exact absurd h (by simp)
            · cases k with
              | zero =>
                refine ⟨by simpa using hb, ?_⟩
                simpa using hcell
              | succ m =>
                have hm : m < rest.length := by simpa using hk
                have hrec := ih (k0 + 1) h m hm
                have hidx : k0 + 1 + m = k0 + (m + 1) := by omega
                rw [hidx] at hrec
                refine ⟨hrec.1, ?_⟩
                simpa using hrec.2

theorem cwWrite_spec (sx sy : Int) (d : Dir) :
    ∀ (ts : List Char) (k0 : Nat) (g : List (List (Option Char))),
      cwShape g →
      (∀ k, k < ts.length →
        (0 ≤ cwPosX sx d (k0 + k) ∧ cwPosX sx d (k0 + k) < 40 ∧
          0 ≤ cwPosY sy d (k0 + k) ∧ cwPosY sy d (k0 + k) < 40) ∧
        (charAt g (cwPosY sy d (k0 + k)) (cwPosX sx d (k0 + k)) = none ∨
          charAt g (cwPosY sy d (k0 + k)) (cwPosX sx d (k0 + k)) =
            some (ts.getD k ' '))) →
      cwShape (cwWrite g sx sy d ts k0) ∧
        (∀ k, k < ts.length →
          charAt (cwWrite g sx sy d ts k0) (cwPosY sy d (k0 + k)) (cwPosX sx d (k0 + k)) =
            some (ts.getD k ' ')) ∧
        (∀ y x c, charAt g y x = some c →
          charAt (cwWrite g sx sy d ts k0) y x = some c) := by
  intro ts
  induction ts with
  | nil =>
    intro k0 g hs _
    refine ⟨hs, ?_, ?_⟩
    · intro k hk
      exact absurd hk (by simp)
    · intro y x c h
      exact h
  | cons c0 rest ih =>
    intro k0 g hs hfits
    obtain ⟨hb0, hcell0⟩ := hfits 0 (by simp)
    simp only [Nat.add_zero, List.getD_cons_zero] at hb0 hcell0
    set g1 := writeChar g (cwPosY sy d k0) (cwPosX sx d k0) c0 with hg1
    have hs1 : cwShape g1 := writeChar_shape g _ _ _ hs
    have hcell1 : charAt g1 (cwPosY sy d k0) (cwPosX sx d k0) = some c0 :=
      charAt_writeChar_self g _ _ _ hs hb0.2.2.1 (by omega) hb0.1 (by omega)
    have hpres1 : ∀ y x c, charAt g y x = some c → charAt g1 y x = some c := by
      intro y x c h
      by_cases heq : y = cwPosY sy d k0 ∧ x = cwPosX sx d k0
      · rw [heq.1, heq.2] at h ⊢
        rcases hcell0 with h0 | h0
        · rw [h] at h0
          exact absurd h0 (by simp)
        · rw [h] at h0
          injection h0 with h0
          rw [← h0] at hcell1
          exact hcell1
      · have hne : y ≠ cwPosY sy d k0 ∨ x ≠ cwPosX sx d k0 := by
          by_contra hcon
          push_neg at hcon
          exact heq ⟨hcon.1, hcon.2⟩
        rw [hg1, charAt_writeChar_ne g y x _ _ _ hne hb0.2.2.1 hb0.1]
        exact h
    have hfits1 : ∀ k, k < rest.length →
        (0 ≤ cwPosX sx d ((k0 + 1) + k) ∧ cwPosX sx d ((k0 + 1) + k) < 40 ∧
          0 ≤ cwPosY sy d ((k0 + 1) + k) ∧ cwPosY sy d ((k0 + 1) + k) < 40) ∧
        (charAt g1 (cwPosY sy d ((k0 + 1) + k)) (cwPosX sx d ((k0 + 1) + k)) = none ∨
          charAt g1 (cwPosY sy d ((k0 + 1) + k)) (cwPosX sx d ((k0 + 1) + k)) =
            some (rest.getD k ' ')) := by
      intro k hk
      have hkk := hfits (k + 1) (by simpa using hk)
      have hidx : k0 + (k + 1) = (k0 + 1) + k := by omega
      rw [hidx] at hkk
      simp only [List.getD_cons_succ] at hkk
      have hne := cwPos_inj sx sy d ((k0 + 1) + k) k0 (by omega)
      refine ⟨hkk.1, ?_⟩
      rw [hg1, charAt_writeChar_ne g _ _ _ _ _ hne hb0.2.2.1 hb0.1]
      exact hkk.2
    obtain ⟨ihs, ihpath, ihpres⟩ := ih (k0 + 1) g1 hs1 hfits1
    refine ⟨ihs, ?_, ?_⟩
    · intro k hk
      cases k with
      | zero =>
        simp only [Nat.add_zero, List.getD_cons_zero]
        exact ihpres _ _ _ hcell1
      | succ m =>
        have hm : m < rest.length := by simpa using hk
        have hidx : k0 + (m + 1) = (k0 + 1) + m := by omega
        rw [hidx]
        simp only [List.getD_cons_succ]
        exact ihpath m hm
    · intro y x c h
      exact ihpres y x c (hpres1 y x c h)

theorem cwWrite_off_path (sx sy : Int) (d : Dir) :
    ∀ (ts : List Char) (k0 : Nat) (g : List (List (Option Char))) (y x : Int),
      (∀ k, k < ts.length → 0 ≤ cwPosX sx d (k0 + k) ∧ 0 ≤ cwPosY sy d (k0 + k)) →
      (∀ k, k < ts.length →
        ¬(y = cwPosY sy d (k0 + k) ∧ x = cwPosX sx d (k0 + k))) →
      charAt (cwWrite g sx sy d ts k0) y x = charAt g y x := by
  intro ts
  induction ts with
  | nil =>
    intro k0 g y x _ _
    rfl
  | cons c0 rest ih =>
    intro k0 g y x hpos hoff
    have h0 := hoff 0 (by simp)
    simp only [Nat.add_zero] at h0
    have hp0 := hpos 0 (by simp)
    simp only [Nat.add_zero] at hp0
    have hne : y ≠ cwPosY sy d k0 ∨ x ≠ cwPosX sx d k0 := by
      by_contra hcon
      push_neg at hcon
      exact h0 ⟨hcon.1, hcon.2⟩
    have step : charAt (cwWrite g sx sy d (c0 :: rest) k0) y x =
        charAt (writeChar g (cwPosY sy d k0) (cwPosX sx d k0) c0) y x := by
      apply ih (k0 + 1)
      · intro k hk
        have := hpos (k + 1) (by simpa using hk)
        have hidx : k0 + (k + 1) = (k0 + 1) + k := by omega
        rw [hidx] at this
        exact this
      · intro k hk
        have := hoff (k + 1) (by simpa using hk)
        have hidx : k0 + (k + 1) = (k0 + 1) + k := by omega
        rw [hidx] at this
        exact this
    rw [step, charAt_writeChar_ne g y x _ _ _ hne hp0.2 hp0.1]

theorem placeFirstGo_spec :
    ∀ (ts : List Char) (x : Int) (g g1 : List (List (Option Char))),
      placeFirstGo g x ts = some g1 → cwShape g →
      cwShape g1 ∧
        (∀ i, i < ts.length → 0 ≤ x + (i : Int) ∧ x + (i : Int) < 40 ∧
          charAt g1 20 (x + (i : Int)) = some (ts.getD i ' ')) ∧
        (∀ y2 x2 : Int, (y2 ≠ 20 ∨ ∀ i, i < ts.length → x2 ≠ x + (i : Int)) →
          charAt g1 y2 x2 = charAt g y2 x2) := by
  intro ts
  induction ts with
  | nil =>
    intro x g g1 h hs
    simp only [placeFirstGo, Option.some.injEq] at h
    subst h
    refine ⟨hs, ?_, ?_⟩
    · intro i hi
      exact absurd hi (by simp)
    · intro y2 x2 _
      rfl
  | cons c rest ih =>
    intro x g g1 h hs
    unfold placeFirstGo at h
    split at h
    · rename_i hb
      have hs2 : cwShape (writeChar g 20 x c) := writeChar_shape g 20 x c hs
      obtain ⟨ihs, ihpath, ihoff⟩ := ih (x + 1) (writeChar g 20 x c) g1 h hs2
      refine ⟨ihs, ?_, ?_⟩
      · intro i hi
        cases i with
        | zero =>
          simp only [Nat.cast_zero, add_zero, List.getD_cons_zero]
          refine ⟨hb.1, hb.2, ?_⟩
          have hoff : charAt g1 20 x = charAt (writeChar g 20 x c) 20 x := by
            apply ihoff
            right
            intro i _
            omega
          rw [hoff]
          exact charAt_writeChar_self g 20 x c hs (by norm_num) (by norm_num)
            hb.1 (by omega)
        | succ m =>
          have hm : m < rest.length := by simpa using hi
          obtain ⟨h1, h2, h3⟩ := ihpath m hm
          refine ⟨by push_cast; omega, by push_cast; omega, ?_⟩
          have hcast : (x + 1) + (m : Int) = x + ((m + 1 : Nat) : Int) := by
            push_cast
            omega
          rw [hcast] at h3
          simpa using h3
      · intro y2 x2 hcond
        have hcond2 : y2 ≠ 20 ∨ ∀ i, i < rest.length → x2 ≠ (x + 1) + (i : Int) := by
          rcases hcond with hl | hr
          · exact Or.inl hl
          · right
            intro i hi
            have := hr (i + 1) (by simpa using hi)
            push_cast at this ⊢
            omega
        rw [ihoff y2 x2 hcond2]
        apply charAt_writeChar_ne g y2 x2 20 x c ?_ (by norm_num) hb.1
        rcases hcond with hl | hr
        · exact Or.inl hl
        · right
          have := hr 0 (by simp)
          simpa using this
    · exact absurd h (by simp)

theorem cwPlace_spec (g : List (List (Option Char))) (term : List Char) (clue : String)
    (sx sy : Int) (d : Dir) (hs : cwShape g)
    (hfits : cwFits g sx sy d term.length term 0 = true) :
    cwShape (cwWrite g sx sy d term 0) ∧
      (∀ yy xx c, charAt g yy xx = some c →
        charAt (cwWrite g sx sy d term 0) yy xx = some c) ∧
      cwLegal (cwWrite g sx sy d term 0) (CWPre.mk term clue sx sy d) ∧
      (∀ yy xx c, charAt (cwWrite g sx sy d term 0) yy xx = some c →
        charAt g yy xx = some c ∨ ∃ k2, k2 < term.length ∧
          yy = cwPosY sy d k2 ∧ xx = cwPosX sx d k2) := by
  have hok := cwFits_ok g sx sy d term.length term 0 hfits
  have hok0 : ∀ k2, k2 < term.length →
      (0 ≤ cwPosX sx d k2 ∧ cwPosX sx d k2 < 40 ∧
        0 ≤ cwPosY sy d k2 ∧ cwPosY sy d k2 < 40) ∧
      (charAt g (cwPosY sy d k2) (cwPosX sx d k2) = none ∨
        charAt g (cwPosY sy d k2) (cwPosX sx d k2) = some (term.getD k2 ' ')) := by
    intro k2 hk2
    have := hok k2 hk2
    simpa using this
  obtain ⟨hsw, hpathw, hpresw⟩ := cwWrite_spec sx sy d term 0 g hs
    (by intro k hk; simpa using hok0 k hk)
  refine ⟨hsw, hpresw, ?_, ?_⟩
  · intro k2 hk2
    have hb := (hok0 k2 hk2).1
    have hp := hpathw k2 hk2
    exact ⟨hb.1, hb.2.1, hb.2.2.1, hb.2.2.2, by simpa using hp⟩
  · intro yy xx c hc
    by_cases hon : ∃ k2, k2 < term.length ∧ yy = cwPosY sy d k2 ∧ xx = cwPosX sx d k2
    · exact Or.inr hon
    · left
      push_neg at hon
      have hoff := cwWrite_off_path sx sy d term 0 g yy xx
        (by
          intro k2 hk2
          have hb := (hok0 k2 hk2).1
          constructor
          · simpa using hb.1
          · simpa using hb.2.2.1)
        (by
          intro k2 hk2 hcon
          rw [Nat.zero_add] at hcon
          exact absurd hcon.2 (hon k2 hk2 hcon.1))
      rw [hoff] at hc
      exact hc

theorem cwAttempt_spec (g : List (List (Option Char))) (term : List Char) (clue : String)
    (x y : Int) (k : Nat) (d : Dir) (g1 : List (List (Option Char))) (e : CWPre)
    (h : cwAttempt g term clue x y k d = some (g1, e)) (hs : cwShape g) :
    cwShape g1 ∧
      (∀ yy xx c, charAt g yy xx = some c → charAt g1 yy xx = some c) ∧
      e.word = term ∧ e.dir = d ∧
      cwPosX e.x e.dir k = x ∧ cwPosY e.y e.dir k = y ∧
      cwLegal g1 e ∧
      (∀ yy xx c, charAt g1 yy xx = some c →
        charAt g yy xx = some c ∨ ∃ k2, k2 < e.word.length ∧
          yy = cwPosY e.y e.dir k2 ∧ xx = cwPosX e.x e.dir k2) := by
  cases d with
  | across =>
    unfold cwAttempt at h
    dsimp only at h
    split at h
    · rename_i hfits
      simp only [Option.some.injEq, Prod.mk.injEq] at h
      obtain ⟨hg, he⟩ := h
      obtain ⟨hsw, hpresw, hlegal, hcells⟩ :=
        cwPlace_spec g term clue (x - (k : Int)) y Dir.across hs hfits
      subst he
      refine ⟨hg ▸ hsw, ?_, rfl, rfl, ?_, ?_, ?_, ?_⟩
      · intro yy xx c hc
        rw [← hg]
        exact hpresw yy xx c hc
      · simp only [cwPosX]
        omega
      · simp only [cwPosY]
      · rw [← hg]
        exact hlegal
      · intro yy xx c hc
        rw [← hg] at hc
        exact hcells yy xx c hc
    · exact absurd h (by simp)
  | down =>
    unfold cwAttempt at h
    dsimp only at h
    split at h
    · rename_i hfits
      simp only [Option.some.injEq, Prod.mk.injEq] at h
      obtain ⟨hg, he⟩ := h
      obtain ⟨hsw, hpresw, hlegal, hcells⟩ :=
        cwPlace_spec g term clue x (y - (k : Int)) Dir.down hs hfits
      subst he
      refine ⟨hg ▸ hsw, ?_, rfl, rfl, ?_, ?_, ?_, ?_⟩
      · intro yy xx c hc
        rw [← hg]
        exact hpresw yy xx c hc
      · simp only [cwPosX]
      · simp only [cwPosY]
        omega
      · rw [← hg]
        exact hlegal
      · intro yy xx c hc
        rw [← hg] at hc
        exact hcells yy xx c hc
    · exact absurd h (by simp)

theorem possibleIndices_lt (term : List Char) (c : Char) :
    ∀ k ∈ possibleIndices term c, k < term.length := by
  intro k hk
  unfold possibleIndices at hk
  exact List.mem_range.mp (List.mem_of_mem_filter hk)

theorem tryIndices_spec (term : List Char) (clue : String) (x y : Int) :
    ∀ (ks : List Nat) (s : Int) (g : List (List (Option Char))) s1 g1 (e : CWPre),
      tryIndices term clue x y ks s g = (s1, some (g1, e)) → cwShape g →
      (∀ k ∈ ks, k < term.length) →
      cwShape g1 ∧
        (∀ yy xx c, charAt g yy xx = some c → charAt g1 yy xx = some c) ∧
        e.word = term ∧
        (∃ k, k < e.word.length ∧ cwPosX e.x e.dir k = x ∧ cwPosY e.y e.dir k = y) ∧
        cwLegal g1 e ∧
        (∀ yy xx c, charAt g1 yy xx = some c →
          charAt g yy xx = some c ∨ ∃ k2, k2 < e.word.length ∧
            yy = cwPosY e.y e.dir k2 ∧ xx = cwPosX e.x e.dir k2) := by
  intro ks
  induction ks with
  | nil =>
    intro s g s1 g1 e h _ _
    simp [tryIndices] at h
  | cons k rest ih =>
    intro s g s1 g1 e h hs hks
    have hklt : k < term.length := hks k (by simp)
    have hrest : ∀ k2 ∈ rest, k2 < term.length :=
      fun k2 hk2 => hks k2 (List.mem_cons_of_mem k hk2)
    unfold tryIndices at h
    dsimp only at h
    split at h
    · cases heq : cwAttempt g term clue x y k Dir.down with
      | some r =>
        rw [heq] at h
        dsimp only at h
        simp only [Prod.mk.injEq, Option.some.injEq] at h
        rw [h.2] at heq
        obtain ⟨h1, h2, h3, h4, h5, h6, h7, h8⟩ :=
          cwAttempt_spec g term clue x y k Dir.down g1 e heq hs
        exact ⟨h1, h2, h3, ⟨k, h3 ▸ hklt, h5, h6⟩, h7, h8⟩
      | none =>
        rw [heq] at h
        dsimp only at h
        exact ih _ _ _ _ _ h hs hrest
    · split at h
      · cases heq : cwAttempt g term clue x y k Dir.across with
        | some r =>
          rw [heq] at h
          dsimp only at h
          simp only [Prod.mk.injEq, Option.some.injEq] at h
          rw [h.2] at heq
          obtain ⟨h1, h2, h3, h4, h5, h6, h7, h8⟩ :=
            cwAttempt_spec g term clue x y k Dir.across g1 e heq hs
          exact ⟨h1, h2, h3, ⟨k, h3 ▸ hklt, h5, h6⟩, h7, h8⟩
        | none =>
          rw [heq] at h
          dsimp only at h
          exact ih _ _ _ _ _ h hs hrest
      · split at h
        · cases heq : cwAttempt g term clue x y k
            (if gtHalf (nextState s) then Dir.across else Dir.down) with
          | some r =>
            rw [heq] at h
            dsimp only at h
            simp only [Prod.mk.injEq, Option.some.injEq] at h
            rw [h.2] at heq
            obtain ⟨h1, h2, h3, h4, h5, h6, h7, h8⟩ :=
              cwAttempt_spec g term clue x y k _ g1 e heq hs
            exact ⟨h1, h2, h3, ⟨k, h3 ▸ hklt, h5, h6⟩, h7, h8⟩
          | none =>
            rw [heq] at h
            dsimp only at h
            exact ih _ _ _ _ _ h hs hrest
        · exact ih _ _ _ _ _ h hs hrest

theorem tryScan_spec (term : List Char) (clue : String) :
    ∀ (ps : List (Int × Int)) (s : Int) (g : List (List (Option Char))) s1 g1 (e : CWPre),
      tryScan term clue ps s g = (s1, some (g1, e)) → cwShape g →
      cwShape g1 ∧
        (∀ yy xx c, charAt g yy xx = some c → charAt g1 yy xx = some c) ∧
        e.word = term ∧
        (∃ xx yy c0, charAt g yy xx = some c0 ∧
          ∃ k, k < e.word.length ∧ cwPosX e.x e.dir k = xx ∧ cwPosY e.y e.dir k = yy) ∧
        cwLegal g1 e ∧
        (∀ yy xx c, charAt g1 yy xx = some c →
          charAt g yy xx = some c ∨ ∃ k2, k2 < e.word.length ∧
            yy = cwPosY e.y e.dir k2 ∧ xx = cwPosX e.x e.dir k2) := by
  intro ps
  induction ps with
  | nil =>
    intro s g s1 g1 e h _
    simp [tryScan] at h
  | cons p rest ih =>
    intro s g s1 g1 e h hs
    unfold tryScan at h
    split at h
    · rename_i cc hcc
      split at h
      · cases heq2 : tryIndices term clue p.1 p.2 (possibleIndices term cc) s g with
        | mk s2 ropt =>
          rw [heq2] at h
          cases ropt with
          | some r =>
            dsimp only at h
            simp only [Prod.mk.injEq, Option.some.injEq] at h
            rw [h.2] at heq2
            rw [h.1] at heq2
            obtain ⟨h1, h2, h3, h4, h5, h6⟩ :=
              tryIndices_spec term clue p.1 p.2 (possibleIndices term cc) s g s1
                g1 e heq2 hs (possibleIndices_lt term cc)
            exact ⟨h1, h2, h3, ⟨p.1, p.2, cc, hcc, h4⟩, h5, h6⟩
          | none =>
            dsimp only at h
            exact ih _ _ _ _ _ h hs
      · exact ih _ _ _ _ _ h hs
    · exact ih _ _ _ _ _ h hs

/-- Default entry for indexed access into placement lists. -/
def cwDefault : CWPre := ⟨[], "", 0, 0, Dir.across⟩

/-- Every filled cell of the virtual grid lies on the path of some
already placed entry. -/
def covers (g : List (List (Option Char))) (acc : List CWPre) : Prop :=
  ∀ y x c, charAt g y x = some c → ∃ e ∈ acc, ∃ k, k < e.word.length ∧
    y = cwPosY e.y e.dir k ∧ x = cwPosX e.x e.dir k

/-- Every entry after the first shares a path cell with an earlier one. -/
def chain (acc : List CWPre) : Prop :=
  ∀ i, 0 < i → i < acc.length →
    ∃ j, j < i ∧ ∃ k1 k2, k1 < (acc.getD i cwDefault).word.length ∧
      k2 < (acc.getD j cwDefault).word.length ∧
      cwPosY (acc.getD i cwDefault).y (acc.getD i cwDefault).dir k1 =
        cwPosY (acc.getD j cwDefault).y (acc.getD j cwDefault).dir k2 ∧
      cwPosX (acc.getD i cwDefault).x (acc.getD i cwDefault).dir k1 =
        cwPosX (acc.getD j cwDefault).x (acc.getD j cwDefault).dir k2

theorem getD_append_lt (l l2 : List α) (i : Nat) (d : α) (h : i < l.length) :
    (l ++ l2).getD i d = l.getD i d := by
  rw [List.getD_eq_getElem?_getD, List.getD_eq_getElem?_getD, List.getElem?_append_left h]

theorem getD_append_self (l : List α) (a d : α) : (l ++ [a]).getD l.length d = a := by
  rw [List.getD_eq_getElem?_getD, List.getElem?_concat_length]
  rfl

theorem placeRest_inv :
    ∀ (ws : List WordPair) (s : Int) (g : List (List (Option Char))) (acc : List CWPre)
      s1 g1 (out : List CWPre),
      placeRest ws s g acc = (s1, g1, out) → cwShape g →
      (∀ e ∈ acc, cwLegal g e) → covers g acc → chain acc →
      cwShape g1 ∧ (∀ e ∈ out, cwLegal g1 e) ∧ covers g1 out ∧ chain out := by
  intro ws
  induction ws with
  | nil =>
    intro s g acc s1 g1 out h hs hleg hcov hch
    simp only [placeRest, Prod.mk.injEq] at h
    exact ⟨h.2.1 ▸ hs, h.2.1 ▸ h.2.2 ▸ hleg, h.2.1 ▸ h.2.2 ▸ hcov, h.2.2 ▸ hch⟩
  | cons w rest ih =>
    intro s g acc s1 g1 out h hs hleg hcov hch
    unfold placeRest at h
    cases heq : tryScan (cleanWord w.word) w.definition (scanOrder g) s g with
    | mk s2 ropt =>
      rw [heq] at h
      cases ropt with
      | none =>
        dsimp only at h
        exact ih _ _ _ _ _ _ h hs hleg hcov hch
      | some r =>
        obtain ⟨gr, er⟩ := r
        dsimp only at h
        obtain ⟨h1, h2, h3, h4, h5, h6⟩ :=
          tryScan_spec (cleanWord w.word) w.definition (scanOrder g) s g s2 gr er heq hs
        refine ih _ _ _ _ _ _ h h1 ?_ ?_ ?_
        · intro e he
          rcases List.mem_append.mp he with hmem | hmem
          · intro k hk
            obtain ⟨b1, b2, b3, b4, b5⟩ := hleg e hmem k hk
            exact ⟨b1, b2, b3, b4, h2 _ _ _ b5⟩
          · have heq2 : e = er := by simpa using hmem
            subst heq2
            exact h5
        · intro y x c hc
          rcases h6 y x c hc with hold | ⟨k2, hk2, hy2, hx2⟩
          · rcases hcov y x c hold with ⟨e, hemem, k, hk, hyk, hxk⟩
            exact ⟨e, List.mem_append_left _ hemem, k, hk, hyk, hxk⟩
          · exact ⟨er, List.mem_append_right _ (by simp), k2, hk2, hy2, hx2⟩
        · intro i hi0 hilen
          rw [List.length_append, List.length_cons, List.length_nil] at hilen
          by_cases hia : i < acc.length
          · obtain ⟨j, hj, k1, k2, hk1, hk2, hy, hx⟩ := hch i hi0 hia
            have hgi : (acc ++ [er]).getD i cwDefault = acc.getD i cwDefault :=
              getD_append_lt acc [er] i cwDefault hia
            have hgj : (acc ++ [er]).getD j cwDefault = acc.getD j cwDefault :=
              getD_append_lt acc [er] j cwDefault (by omega)
            refine ⟨j, hj, k1, k2, ?_, ?_, ?_, ?_⟩
            · rw [hgi]
              exact hk1
            · rw [hgj]
              exact hk2
            · rw [hgi, hgj]
              exact hy
            · rw [hgi, hgj]
              exact hx
          · have hieq : i = acc.length := by omega
            subst hieq
            obtain ⟨xx, yy, c0, hanchor, k, hk, hxk, hyk⟩ := h4
            rcases hcov yy xx c0 hanchor with ⟨e2, he2mem, k2, hk2, hy2, hx2⟩
            obtain ⟨j, hjlen, hje⟩ := List.getElem_of_mem he2mem
            refine ⟨j, by omega, k, k2, ?_, ?_, ?_, ?_⟩
            · rw [getD_append_self acc er cwDefault]
              exact hk
            · rw [getD_append_lt acc [er] j cwDefault hjlen,
                List.getD_eq_getElem acc cwDefault hjlen, hje]
              exact hk2
            · rw [getD_append_self acc er cwDefault,
                getD_append_lt acc [er] j cwDefault hjlen,
                List.getD_eq_getElem acc cwDefault hjlen, hje]
              rw [hyk, hy2]
            · rw [getD_append_self acc er cwDefault,
                getD_append_lt acc [er] j cwDefault hjlen,
                List.getD_eq_getElem acc cwDefault hjlen, hje]
              rw [hxk, hx2]

theorem generateCrossword_inv (w : List WordPair) (s : Int) (L : CrosswordLayout)
    (h : generateCrossword w s = some L) :
    ∃ g placed, cropLayout g placed = some L ∧ cwShape g ∧
      (∀ e ∈ placed, cwLegal g e) ∧ chain placed := by
  unfold generateCrossword at h
  cases hsort : jsSort rawLenDesc w with
  | nil =>
    rw [hsort] at h
    rw [show cropLayout mkCWGrid [] = none from rfl] at h
    exact absurd h (by simp)
  | cons first rest =>
    rw [hsort] at h
    dsimp only at h
    cases hpf : placeFirstGo mkCWGrid
        (20 - (((cleanWord first.word).length / 2 : Nat) : Int)) (cleanWord first.word) with
    | none =>
      rw [hpf] at h
      exact absurd h (by simp)
    | some gf =>
      rw [hpf] at h
      dsimp only at h
      obtain ⟨hsf, hpath, hoff⟩ :=
        placeFirstGo_spec (cleanWord first.word)
          (20 - (((cleanWord first.word).length / 2 : Nat) : Int)) mkCWGrid gf hpf
          mkCWGrid_shape
      set startX : Int := 20 - (((cleanWord first.word).length / 2 : Nat) : Int) with hsx
      set e1 : CWPre :=
        CWPre.mk (cleanWord first.word) first.definition startX 20 Dir.across with he1
      have hleg1 : cwLegal gf e1 := by
        intro k hk
        obtain ⟨b1, b2, b3⟩ := hpath k hk
        refine ⟨?_, ?_, ?_, ?_, ?_⟩
        · simpa [he1, cwPosX] using b1
        · simpa [he1, cwPosX] using b2
        · simp [he1, cwPosY]
        · simp [he1, cwPosY]
        · simpa [he1, cwPosX, cwPosY] using b3
      have hcov1 : covers gf [e1] := by
        intro y x c hc
        by_cases hy20 : y = 20
        · by_cases hon : ∃ i, i < (cleanWord first.word).length ∧ x = startX + (i : Int)
          · obtain ⟨i, hi, hxi⟩ := hon
            refine ⟨e1, by simp, i, by simpa [he1] using hi, ?_, ?_⟩
            · simp [he1, cwPosY, hy20]
            · simpa [he1, cwPosX] using hxi
          · push_neg at hon
            have hcond : y ≠ 20 ∨ ∀ i, i < (cleanWord first.word).length →
                x ≠ startX + (i : Int) := Or.inr (fun i hi => hon i hi)
            rw [hoff y x hcond, mkCWGrid_none] at hc
            exact absurd hc (by simp)
        · have hcond : y ≠ 20 ∨ ∀ i, i < (cleanWord first.word).length →
              x ≠ startX + (i : Int) := Or.inl hy20
          rw [hoff y x hcond, mkCWGrid_none] at hc
          exact absurd hc (by simp)
      have hch1 : chain [e1] := by
        intro i hi0 hilen
        simp only [List.length_cons, List.length_nil] at hilen
        omega
      obtain ⟨hshape2, hleg2, hcov2, hch2⟩ :=
        placeRest_inv rest s gf [e1] (placeRest rest s gf [e1]).1
          (placeRest rest s gf [e1]).2.1 (placeRest rest s gf [e1]).2.2 rfl hsf
          (by
            intro e he
            have : e = e1 := by simpa using he
            rw [this]
            exact hleg1)
          hcov1 hch1
      exact ⟨(placeRest rest s gf [e1]).2.1, (placeRest rest s gf [e1]).2.2, h,
        hshape2, hleg2, hch2⟩

/-- Strict (y, x) order on start cells. -/
def lexLT (a b : Int × Int) : Prop :=
  a.2 < b.2 ∨ (a.2 = b.2 ∧ a.1 < b.1)

theorem lexYX_total (a b : Int × Int) : lexYX a b = true ∨ lexYX b a = true := by
  unfold lexYX
  simp only [decide_eq_true_eq]
  omega

theorem lexYX_trans (a b c : Int × Int) (h1 : lexYX a b = true) (h2 : lexYX b c = true) :
    lexYX a c = true := by
  unfold lexYX at h1 h2 ⊢
  simp only [decide_eq_true_eq] at h1 h2 ⊢
  omega

theorem lexYX_ne_lt (a b : Int × Int) (hle : lexYX a b = true) (hne : a ≠ b) : lexLT a b := by
  unfold lexYX at hle
  unfold lexLT
  simp only [decide_eq_true_eq] at hle
  have hab : a.1 ≠ b.1 ∨ a.2 ≠ b.2 := by
    by_contra hcon
    push_neg at hcon
    exact hne (Prod.ext hcon.1 hcon.2)
  omega

theorem lexLT_asymm (a b : Int × Int) (h : lexLT a b) : ¬lexLT b a := by
  unfold lexLT at h ⊢
  omega

theorem dedupFirst_mem_of :
    ∀ (l seen : List (Int × Int)) (p : Int × Int), p ∈ l → p ∉ seen →
      p ∈ dedupFirst seen l := by
  intro l
  induction l with
  | nil =>
    intro seen p hp
    exact absurd hp (by simp)
  | cons q rest ih =>
    intro seen p hp hseen
    unfold dedupFirst
    rcases List.mem_cons.mp hp with heq | hmem
    · subst heq
      rw [if_neg hseen]
      exact List.mem_cons_self _ _
    · by_cases hq : q ∈ seen
      · rw [if_pos hq]
        exact ih seen p hmem hseen
      · rw [if_neg hq]
        by_cases hpq : p = q
        · subst hpq
          exact List.mem_cons_self _ _
        · exact List.mem_cons_of_mem q
            (ih (q :: seen) p hmem (by
              intro hcon
              rcases List.mem_cons.mp hcon with h | h
              · exact hpq h
              · exact hseen h))

theorem dedupFirst_not_seen :
    ∀ (l seen : List (Int × Int)) (p : Int × Int), p ∈ dedupFirst seen l → p ∉ seen := by
  intro l
  induction l with
  | nil =>
    intro seen p hp
    exact absurd hp (by simp [dedupFirst])
  | cons q rest ih =>
    intro seen p hp
    unfold dedupFirst at hp
    split at hp
    · exact ih seen p hp
    · rcases List.mem_cons.mp hp with heq | hmem
      · subst heq
        assumption
      · have := ih (q :: seen) p hmem
        intro hcon
        exact this (List.mem_cons_of_mem q hcon)

theorem dedupFirst_nodup : ∀ (l seen : List (Int × Int)), (dedupFirst seen l).Nodup := by
  intro l
  induction l with
  | nil =>
    intro seen
    simp [dedupFirst]
  | cons q rest ih =>
    intro seen
    unfold dedupFirst
    split
    · exact ih seen
    · refine List.nodup_cons.mpr ⟨?_, ih (q :: seen)⟩
      intro hcon
      exact dedupFirst_not_seen rest (q :: seen) q hcon (List.mem_cons_self _ _)

theorem posIdx_lt_length :
    ∀ (l : List (Int × Int)) (p : Int × Int), p ∈ l → posIdx l p < l.length := by
  intro l
  induction l with
  | nil =>
    intro p hp
    exact absurd hp (by simp)
  | cons q rest ih =>
    intro p hp
    unfold posIdx
    by_cases hq : q = p
    · rw [if_pos hq]
      simp
    · rw [if_neg hq]
      have hmem : p ∈ rest := by
        rcases List.mem_cons.mp hp with heq | hmem
        · exact absurd heq.symm hq
        · exact hmem
      have := ih p hmem
      simp only [List.length_cons]
      omega

theorem posIdx_getD :
    ∀ (l : List (Int × Int)) (p pd : Int × Int), p ∈ l → l.getD (posIdx l p) pd = p := by
  intro l
  induction l with
  | nil =>
    intro p pd hp
    exact absurd hp (by simp)
  | cons q rest ih =>
    intro p pd hp
    unfold posIdx
    by_cases hq : q = p
    · rw [if_pos hq]
      simpa using hq
    · rw [if_neg hq]
      have hmem : p ∈ rest := by
        rcases List.mem_cons.mp hp with heq | hmem
        · exact absurd heq.symm hq
        · exact hmem
      simpa using ih p pd hmem

theorem posIdx_mono :
    ∀ (l : List (Int × Int)), l.Pairwise lexLT →
      ∀ (p q : Int × Int), p ∈ l → q ∈ l → lexLT p q → posIdx l p < posIdx l q := by
  intro l
  induction l with
  | nil =>
    intro _ p q hp
    exact absurd hp (by simp)
  | cons r rest ih =>
    intro hpw p q hp hq hlt
    rcases List.pairwise_cons.mp hpw with ⟨hr, hrest⟩
    unfold posIdx
    by_cases hrp : r = p
    · rw [if_pos hrp]
      by_cases hrq : r = q
      · exfalso
        rw [← hrp, ← hrq] at hlt
        exact lexLT_asymm r r hlt hlt
      · rw [if_neg hrq]
        omega
    · rw [if_neg hrp]
      by_cases hrq : r = q
      · exfalso
        have hpmem : p ∈ rest := by
          rcases List.mem_cons.mp hp with heq | hmem
          · exact absurd heq.symm hrp
          · exact hmem
        have hrp2 : lexLT r p := hr p hpmem
        rw [hrq] at hrp2
        exact lexLT_asymm q p hrp2 hlt
      · rw [if_neg hrq]
        have hpmem : p ∈ rest := by
          rcases List.mem_cons.mp hp with heq | hmem
          · exact absurd heq.symm hrp
          · exact hmem
        have hqmem : q ∈ rest := by
          rcases List.mem_cons.mp hq with heq | hmem
          · exact absurd heq.symm hrq
          · exact hmem
        have := ih hrest p q hpmem hqmem hlt
        omega

theorem foldl_min_le_init (f : CWPre → Int) :
    ∀ (l : List CWPre) (a : Int), l.foldl (fun m w => min m (f w)) a ≤ a := by
  intro l
  induction l with
  | nil => intro a; exact le_refl a
  | cons b rest ih =>
    intro a
    calc (b :: rest).foldl (fun m w => min m (f w)) a
        = rest.foldl (fun m w => min m (f w)) (min a (f b)) := rfl
      _ ≤ min a (f b) := ih _
      _ ≤ a := min_le_left _ _

theorem foldl_min_le (f : CWPre → Int) :
    ∀ (l : List CWPre) (a : Int) (e : CWPre), e ∈ l →
      l.foldl (fun m w => min m (f w)) a ≤ f e := by
  intro l
  induction l with
  | nil => intro a e he; exact absurd he (by simp)
  | cons b rest ih =>
    intro a e he
    rcases List.mem_cons.mp he with heq | hmem
    · subst heq
      calc (e :: rest).foldl (fun m w => min m (f w)) a
          = rest.foldl (fun m w => min m (f w)) (min a (f e)) := rfl
        _ ≤ min a (f e) := foldl_min_le_init f rest _
        _ ≤ f e := min_le_right _ _
    · exact ih (min a (f b)) e hmem

theorem foldl_max_ge_init (f : CWPre → Int) :
    ∀ (l : List CWPre) (a : Int), a ≤ l.foldl (fun m w => max m (f w)) a := by
  intro l
  induction l with
  | nil => intro a; exact le_refl a
  | cons b rest ih =>
    intro a
    calc a ≤ max a (f b) := le_max_left _ _
      _ ≤ rest.foldl (fun m w => max m (f w)) (max a (f b)) := ih _
      _ = (b :: rest).foldl (fun m w => max m (f w)) a := rfl

theorem foldl_max_ge (f : CWPre → Int) :
    ∀ (l : List CWPre) (a : Int) (e : CWPre), e ∈ l →
      f e ≤ l.foldl (fun m w => max m (f w)) a := by
  intro l
  induction l with
  | nil => intro a e he; exact absurd he (by simp)
  | cons b rest ih =>
    intro a e he
    rcases List.mem_cons.mp he with heq | hmem
    · subst heq
      calc f e ≤ max a (f e) := le_max_right _ _
        _ ≤ rest.foldl (fun m w => max m (f w)) (max a (f e)) := foldl_max_ge_init f rest _
        _ = (e :: rest).foldl (fun m w => max m (f w)) a := rfl
    · exact ih (max a (f b)) e hmem

/-- The four crop bounds, as computed by the crop pass. -/
def cropMinX (placed : List CWPre) : Int :=
  max 0 ((placed.foldl (fun m w => min m w.x) 40) - 1)

def cropMinY (placed : List CWPre) : Int :=
  max 0 ((placed.foldl (fun m w => min m w.y) 40) - 1)

def cropMaxX (placed : List CWPre) : Int :=
  placed.foldl (fun m w => max m (wordSpanX w)) 0

def cropMaxY (placed : List CWPre) : Int :=
  placed.foldl (fun m w => max m (wordSpanY w)) 0

/-- An entry as shifted into cropped coordinates. -/
def cwShift (placed : List CWPre) (w : CWPre) : CWPre :=
  CWPre.mk w.word w.clue (w.x - cropMinX placed) (w.y - cropMinY placed) w.dir

/-- The sorted distinct start cells of the shifted entries. -/
def cropStarts (placed : List CWPre) : List (Int × Int) :=
  jsSort lexYX (dedupFirst [] ((placed.map (cwShift placed)).map (fun w => (w.x, w.y))))

/-- A shifted entry with its assigned clue number. -/
def cwNumber (placed : List CWPre) (w : CWPre) : CWEntry :=
  CWEntry.mk w.word w.clue w.x w.y w.dir (posIdx (cropStarts placed) (w.x, w.y) + 1)

/-- The cropped grid expression of the crop pass. -/
def cropGrid (g : List (List (Option Char))) (placed : List CWPre) : List (List CWCell) :=
  (List.range (cropMaxY placed - cropMinY placed + 2).toNat).map (fun (cy : Nat) =>
    (List.range (cropMaxX placed - cropMinX placed + 2).toNat).map (fun (cx : Nat) =>
      if (cy : Int) + cropMinY placed < 40 ∧ (cx : Int) + cropMinX placed < 40 then
        CWCell.mk (charAt g ((cy : Int) + cropMinY placed) ((cx : Int) + cropMinX placed)) cx cy
      else CWCell.mk none cx cy))

theorem cropLayout_eq (g : List (List (Option Char))) (placed : List CWPre)
    (L : CrosswordLayout) (h : cropLayout g placed = some L) :
    L.width = cropMaxX placed - cropMinX placed + 2 ∧
      L.height = cropMaxY placed - cropMinY placed + 2 ∧
      L.grid = cropGrid g placed ∧
      L.placedWords = (placed.map (cwShift placed)).map (cwNumber placed) := by
  unfold cropLayout at h
  dsimp only at h
  split at h
  · simp only [Option.some.injEq] at h
    rw [← h]
    exact ⟨rfl, rfl, rfl, rfl⟩
  · exact absurd h (by simp)

theorem cwPosX_shift (x m : Int) (d : Dir) (k : Nat) :
    cwPosX (x - m) d k = cwPosX x d k - m := by
  cases d <;> simp [cwPosX] <;> omega

theorem cwPosY_shift (y m : Int) (d : Dir) (k : Nat) :
    cwPosY (y - m) d k = cwPosY y d k - m := by
  cases d <;> simp [cwPosY] <;> omega

theorem cropGrid_char (g : List (List (Option Char))) (placed : List CWPre)
    (cy cx : Int) (hcy0 : 0 ≤ cy) (hcy : cy < cropMaxY placed - cropMinY placed + 2)
    (hcx0 : 0 ≤ cx) (hcx : cx < cropMaxX placed - cropMinX placed + 2)
    (hgy : cy + cropMinY placed < 40) (hgx : cx + cropMinX placed < 40) :
    cwCellChar (cropGrid g placed) cy cx =
      charAt g (cy + cropMinY placed) (cx + cropMinX placed) := by
  have hcyn : ((cy.toNat : Nat) : Int) = cy := Int.toNat_of_nonneg hcy0
  have hcxn : ((cx.toNat : Nat) : Int) = cx := Int.toNat_of_nonneg hcx0
  have hH : cy.toNat < (cropMaxY placed - cropMinY placed + 2).toNat := by omega
  have hW : cx.toNat < (cropMaxX placed - cropMinX placed + 2).toNat := by omega
  unfold cwCellChar cropGrid
  rw [if_pos ⟨hcy0, hcx0⟩]
  rw [List.getD_eq_getElem _ []
    (by
      rw [List.length_map, List.length_range]
      exact hH)]
  rw [List.getElem_map, List.getElem_range]
  rw [List.getD_eq_getElem _ _
    (by
      rw [List.length_map, List.length_range]
      exact hW)]
  rw [List.getElem_map, List.getElem_range]
  rw [if_pos (by rw [hcyn, hcxn]; exact ⟨hgy, hgx⟩)]
  rw [hcyn, hcxn]

theorem crop_path_char (g : List (List (Option Char))) (placed : List CWPre)
    (L : CrosswordLayout) (h : cropLayout g placed = some L)
    (w : CWPre) (hw : w ∈ placed) (hleg : cwLegal g w) (k : Nat)
    (hk : k < w.word.length) :
    cwCellChar L.grid (cwPosY (w.y - cropMinY placed) w.dir k)
      (cwPosX (w.x - cropMinX placed) w.dir k) = some (w.word.getD k ' ') := by
  obtain ⟨b1, b2, b3, b4, b5⟩ := hleg k hk
  have hminx : placed.foldl (fun m p => min m p.x) 40 ≤ w.x :=
    foldl_min_le (fun p => p.x) placed 40 w hw
  have hminy : placed.foldl (fun m p => min m p.y) 40 ≤ w.y :=
    foldl_min_le (fun p => p.y) placed 40 w hw
  have hmaxx : wordSpanX w ≤ cropMaxX placed :=
    foldl_max_ge wordSpanX placed 0 w hw
  have hmaxy : wordSpanY w ≤ cropMaxY placed :=
    foldl_max_ge wordSpanY placed 0 w hw
  have hxge : w.x ≤ cwPosX w.x w.dir k := by
    cases hd : w.dir <;> simp [cwPosX] <;> omega
  have hyge : w.y ≤ cwPosY w.y w.dir k := by
    cases hd : w.dir <;> simp [cwPosY] <;> omega
  have hxlt : cwPosX w.x w.dir k < wordSpanX w := by
    cases hd : w.dir <;> simp [cwPosX, wordSpanX, hd] <;> omega
  have hylt : cwPosY w.y w.dir k < wordSpanY w := by
    cases hd : w.dir <;> simp [cwPosY, wordSpanY, hd] <;> omega
  have hminx2 : cropMinX placed ≤ cwPosX w.x w.dir k := by
    unfold cropMinX
    omega
  have hminy2 : cropMinY placed ≤ cwPosY w.y w.dir k := by
    unfold cropMinY
    omega
  rw [(cropLayout_eq g placed L h).2.2.1, cwPosX_shift, cwPosY_shift]
  rw [cropGrid_char g placed _ _ (by omega) (by omega) (by omega) (by omega)
    (by omega) (by omega)]
  have hyy : cwPosY w.y w.dir k - cropMinY placed + cropMinY placed =
      cwPosY w.y w.dir k := by omega
  have hxx : cwPosX w.x w.dir k - cropMinX placed + cropMinX placed =
      cwPosX w.x w.dir k := by omega
  rw [hyy, hxx]
  exact b5

theorem cropStarts_pairwise (placed : List CWPre) :
    (cropStarts placed).Pairwise lexLT := by
  have hpw := jsSort_pairwise lexYX lexYX_total lexYX_trans
    (dedupFirst [] ((placed.map (cwShift placed)).map (fun w => (w.x, w.y))))
  have hnd : (cropStarts placed).Nodup :=
    (jsSort_perm lexYX _).symm.nodup
      (dedupFirst_nodup ((placed.map (cwShift placed)).map (fun w => (w.x, w.y))) [])
  have hboth := hpw.and hnd
  exact hboth.imp (fun hab => lexYX_ne_lt _ _ hab.1 hab.2)

theorem crop_number_facts (g : List (List (Option Char))) (placed : List CWPre)
    (L : CrosswordLayout) (h : cropLayout g placed = some L) :
    ∀ e ∈ L.placedWords,
      e.number = posIdx (cropStarts placed) (e.x, e.y) + 1 ∧
        (e.x, e.y) ∈ cropStarts placed := by
  intro e he
  rw [(cropLayout_eq g placed L h).2.2.2] at he
  rcases List.mem_map.mp he with ⟨w2, hw2, hew⟩
  rcases List.mem_map.mp hw2 with ⟨w1, hw1, hsw⟩
  subst hew
  constructor
  · rfl
  · show (_, _) ∈ cropStarts placed
    have hmem : ((w2.x, w2.y) : Int × Int) ∈
        (placed.map (cwShift placed)).map (fun w => (w.x, w.y)) := by
      refine List.mem_map.mpr ⟨w2, ?_, rfl⟩
      rw [← hsw]
      exact List.mem_map.mpr ⟨w1, hw1, rfl⟩
    have hded := dedupFirst_mem_of _ [] (w2.x, w2.y) hmem (by simp)
    exact ((jsSort_perm lexYX _).mem_iff).mpr hded

/-- Default entry for indexed access into the output list. -/
def cwEntryDefault : CWEntry := ⟨[], "", 0, 0, Dir.across, 0⟩

/-- Claim C8: in every crossword layout the letters along each placed
entry's path in the cropped grid equal that entry's normalized word; no
two entries disagree on a shared cell; entries starting at the same cell
share their clue number; numbers strictly increase in (y, x) order of
start cells and determine the start cell; all numbers are at least 1. -/
theorem crossword_layout_invariants (w : List WordPair) (s : Int) (e1 e2 : CWEntry)
    (h1 : e1 ∈ cwEntries (generateCrossword w s))
    (h2 : e2 ∈ cwEntries (generateCrossword w s))
    (k1 k2 : Nat) (hk1 : k1 < e1.word.length) (hk2 : k2 < e2.word.length) :
    cwCellChar (cwGridOf (generateCrossword w s)) (cwPosY e1.y e1.dir k1)
        (cwPosX e1.x e1.dir k1) = some (e1.word.getD k1 ' ') ∧
      ((cwPosY e1.y e1.dir k1 = cwPosY e2.y e2.dir k2 ∧
          cwPosX e1.x e1.dir k1 = cwPosX e2.x e2.dir k2) →
        e1.word.getD k1 ' ' = e2.word.getD k2 ' ') ∧
      ((e1.x, e1.y) = (e2.x, e2.y) → e1.number = e2.number) ∧
      (lexLT (e1.x, e1.y) (e2.x, e2.y) → e1.number < e2.number) ∧
      (e1.number = e2.number → (e1.x, e1.y) = (e2.x, e2.y)) ∧
      1 ≤ e1.number := by
  cases hgen : generateCrossword w s with
  | none =>
    rw [hgen] at h1
    exact absurd h1 (by simp [cwEntries])
  | some L =>
    simp only [hgen, cwEntries] at h1 h2
    simp only [cwGridOf]
    obtain ⟨g, placed, hcl, hs, hleg, hchain⟩ := generateCrossword_inv w s L hgen
    have hpath : ∀ e ∈ L.placedWords, ∀ k, k < e.word.length →
        cwCellChar L.grid (cwPosY e.y e.dir k) (cwPosX e.x e.dir k) =
          some (e.word.getD k ' ') := by
      intro e he k hk
      rw [(cropLayout_eq g placed L hcl).2.2.2] at he
      rcases List.mem_map.mp he with ⟨w2, hw2, hew⟩
      rcases List.mem_map.mp hw2 with ⟨w1, hw1, hsw⟩
      subst hew
      subst hsw
      have hkk : k < w1.word.length := by simpa [cwNumber, cwShift] using hk
      have := crop_path_char g placed L hcl w1 hw1 (hleg w1 hw1) k hkk
      simpa [cwNumber, cwShift] using this
    have hnum1 := crop_number_facts g placed L hcl e1 h1
    have hnum2 := crop_number_facts g placed L hcl e2 h2
    refine ⟨hpath e1 h1 k1 hk1, ?_, ?_, ?_, ?_, ?_⟩
    · intro hpos
      have ha := hpath e1 h1 k1 hk1
      have hb := hpath e2 h2 k2 hk2
      rw [hpos.1, hpos.2, hb] at ha
      injection ha with ha
      exact ha.symm
    · intro hxy
      rw [hnum1.1, hnum2.1, hxy]
    · intro hlt
      rw [hnum1.1, hnum2.1]
      have := posIdx_mono (cropStarts placed) (cropStarts_pairwise placed)
        (e1.x, e1.y) (e2.x, e2.y) hnum1.2 hnum2.2 hlt
      omega
    · intro hn
      rw [hnum1.1, hnum2.1] at hn
      have hidx : posIdx (cropStarts placed) (e1.x, e1.y) =
          posIdx (cropStarts placed) (e2.x, e2.y) := by omega
      have hp1 := posIdx_getD (cropStarts placed) (e1.x, e1.y) (0, 0) hnum1.2
      have hp2 := posIdx_getD (cropStarts placed) (e2.x, e2.y) (0, 0) hnum2.2
      rw [hidx] at hp1
      rw [hp2] at hp1
      exact hp1.symm
    · rw [hnum1.1]
      omega

/-- Claim C10: in every crossword layout from a non-empty word list,
every placed entry after the first shares at least one path cell with an
earlier placed entry (placements are anchored at already-filled cells),
so the layout is connected through intersections. -/
theorem crossword_connected_placements (w : List WordPair) (s : Int) (i : Nat)
    (hi1 : 1 ≤ i) (hi : i < (cwEntries (generateCrossword w s)).length) :
    ∃ j, j < i ∧ ∃ k1 k2,
      k1 < ((cwEntries (generateCrossword w s)).getD i cwEntryDefault).word.length ∧
      k2 < ((cwEntries (generateCrossword w s)).getD j cwEntryDefault).word.length ∧
      cwPosY ((cwEntries (generateCrossword w s)).getD i cwEntryDefault).y
          ((cwEntries (generateCrossword w s)).getD i cwEntryDefault).dir k1 =
        cwPosY ((cwEntries (generateCrossword w s)).getD j cwEntryDefault).y
          ((cwEntries (generateCrossword w s)).getD j cwEntryDefault).dir k2 ∧
      cwPosX ((cwEntries (generateCrossword w s)).getD i cwEntryDefault).x
          ((cwEntries (generateCrossword w s)).getD i cwEntryDefault).dir k1 =
        cwPosX ((cwEntries (generateCrossword w s)).getD j cwEntryDefault).x
          ((cwEntries (generateCrossword w s)).getD j cwEntryDefault).dir k2 := by
  cases hgen : generateCrossword w s with
  | none =>
    rw [hgen] at hi
    simp [cwEntries] at hi
  | some L =>
    rw [hgen] at hi
    simp only [cwEntries] at hi ⊢
    obtain ⟨g, placed, hcl, hs, hleg, hchain⟩ := generateCrossword_inv w s L hgen
    have hwordsEq := (cropLayout_eq g placed L hcl).2.2.2
    have hlen : L.placedWords.length = placed.length := by
      rw [hwordsEq]
      simp
    have hgetD : ∀ (i2 : Nat), i2 < placed.length →
        L.placedWords.getD i2 cwEntryDefault =
          cwNumber placed (cwShift placed (placed.getD i2 cwDefault)) := by
      intro i2 hi2
      rw [hwordsEq]
      rw [List.getD_eq_getElem _ _ (by simpa using hi2)]
      rw [List.getElem_map, List.getElem_map]
      rw [List.getD_eq_getElem _ _ hi2]
    obtain ⟨j, hj, k1, k2, hk1, hk2, hy, hx⟩ := hchain i (by omega) (by omega)
    refine ⟨j, hj, k1, k2, ?_, ?_, ?_, ?_⟩
    · rw [hgetD i (by omega)]
      simpa [cwNumber, cwShift] using hk1
    · rw [hgetD j (by omega)]
      simpa [cwNumber, cwShift] using hk2
    · rw [hgetD i (by omega), hgetD j (by omega)]
      simp only [cwNumber, cwShift, cwPosY_shift]
      omega
    · rw [hgetD i (by omega), hgetD j (by omega)]
      simp only [cwNumber, cwShift, cwPosX_shift]
      omega

theorem crossword_layout_invariants_witness :
    (⟨"ROBOT".toList, "rob", 1, 2, Dir.across, 2⟩ : CWEntry) ∈
        cwEntries (generateCrossword [⟨"ROBOT", "rob"⟩, ⟨"TOP", "t"⟩] 0) ∧
    (⟨"TOP".toList, "t", 2, 1, Dir.down, 1⟩ : CWEntry) ∈
        cwEntries (generateCrossword [⟨"ROBOT", "rob"⟩, ⟨"TOP", "t"⟩] 0) ∧
    1 < "ROBOT".toList.length ∧
    1 < "TOP".toList.length ∧
    (cwCellChar (cwGridOf (generateCrossword [⟨"ROBOT", "rob"⟩, ⟨"TOP", "t"⟩] 0))
        (cwPosY 2 Dir.across 1) (cwPosX 1 Dir.across 1) = some 'O' ∧
      ((cwPosY 2 Dir.across 1 = cwPosY 1 Dir.down 1 ∧
          cwPosX 1 Dir.across 1 = cwPosX 2 Dir.down 1) → 'O' = 'O') ∧
      (((1 : Int), (2 : Int)) = ((2 : Int), (1 : Int)) → (2 : Nat) = 1) ∧
      (lexLT ((1 : Int), (2 : Int)) ((2 : Int), (1 : Int)) → 2 < 1) ∧
      ((2 : Nat) = 1 → ((1 : Int), (2 : Int)) = ((2 : Int), (1 : Int))) ∧
      1 ≤ (2 : Nat)) :=
  ⟨by decide, by decide, by decide, by decide,
    crossword_layout_invariants [⟨"ROBOT", "rob"⟩, ⟨"TOP", "t"⟩] 0
      ⟨"ROBOT".toList, "rob", 1, 2, Dir.across, 2⟩
      ⟨"TOP".toList, "t", 2, 1, Dir.down, 1⟩
      (by decide) (by decide) 1 1 (by decide) (by decide)⟩

theorem crossword_connected_placements_witness :
    1 ≤ 1 ∧
    1 < (cwEntries (generateCrossword [⟨"ROBOT", "rob"⟩, ⟨"TOP", "t"⟩] 0)).length ∧
    (∃ j, j < 1 ∧ ∃ k1 k2,
      k1 < ((cwEntries (generateCrossword [⟨"ROBOT", "rob"⟩, ⟨"TOP", "t"⟩] 0)).getD 1
          cwEntryDefault).word.length ∧
      k2 < ((cwEntries (generateCrossword [⟨"ROBOT", "rob"⟩, ⟨"TOP", "t"⟩] 0)).getD j
          cwEntryDefault).word.length ∧
      cwPosY ((cwEntries (generateCrossword [⟨"ROBOT", "rob"⟩, ⟨"TOP", "t"⟩] 0)).getD 1
            cwEntryDefault).y
          ((cwEntries (generateCrossword [⟨"ROBOT", "rob"⟩, ⟨"TOP", "t"⟩] 0)).getD 1
            cwEntryDefault).dir k1 =
        cwPosY ((cwEntries (generateCrossword [⟨"ROBOT", "rob"⟩, ⟨"TOP", "t"⟩] 0)).getD j
            cwEntryDefault).y
          ((cwEntries (generateCrossword [⟨"ROBOT", "rob"⟩, ⟨"TOP", "t"⟩] 0)).getD j
            cwEntryDefault).dir k2 ∧
      cwPosX ((cwEntries (generateCrossword [⟨"ROBOT", "rob"⟩, ⟨"TOP", "t"⟩] 0)).getD 1
            cwEntryDefault).x
          ((cwEntries (generateCrossword [⟨"ROBOT", "rob"⟩, ⟨"TOP", "t"⟩] 0)).getD 1
            cwEntryDefault).dir k1 =
        cwPosX ((cwEntries (generateCrossword [⟨"ROBOT", "rob"⟩, ⟨"TOP", "t"⟩] 0)).getD j
            cwEntryDefault).x
          ((cwEntries (generateCrossword [⟨"ROBOT", "rob"⟩, ⟨"TOP", "t"⟩] 0)).getD j
            cwEntryDefault).dir k2) :=
  ⟨by decide, by decide,
    crossword_connected_placements [⟨"ROBOT", "rob"⟩, ⟨"TOP", "t"⟩] 0 1
      (by decide) (by decide)⟩
